import Mathlib

/-!
Shallow embedding of the termmine board engine (src/Game.hxx, src/Game.cxx).

Each cell is one unsigned char, bit-packed (Game.hxx):
  bit 7 = has mine, bit 6 = opened, bit 5 = flagged, bit 4 = marked,
  bits 3..0 = number of adjacent mines.
The board is a rows x cols vector of vectors of such bytes.  Machine
`unsigned char` values are modelled as `Nat` (all operations used by the
source only touch bits 0..7, and masks include the unsigned-char
truncation where the C++ would truncate on assignment).  C++ exceptions
(`BadGameState`) and out-of-bounds vector accesses are modelled with
`Except`.
-/

deriving instance DecidableEq for Except

namespace Termmine

/-- Bounds-checked board read, `board_[r][c]`; `none` models an
out-of-bounds access (undefined behaviour in the C++). -/
def getCell (b : List (List Nat)) (r c : Nat) : Option Nat :=
  (b[r]?).bind (fun row => row[c]?)

/-- Board read used where the source access is in bounds (defaults to 0
out of bounds; in-bounds it agrees with `getCell`). -/
def cellD (b : List (List Nat)) (r c : Nat) : Nat :=
  (b.getD r []).getD c 0

/-- Board write `board_[r][c] = v` (no-op out of bounds; the source never
writes out of bounds on the paths we verify). -/
def setCell (b : List (List Nat)) (r c v : Nat) : List (List Nat) :=
  b.set r ((b.getD r []).set c v)

/-- The `Game` class state (Game.hxx): immutable `rows_`, `cols_`,
`mines_`, the packed board, and the session fields `game_over_`, `won_`,
`cells_flagged_`, `open_cells_`.  The `Timer` member is omitted: it has
no influence on any board state transition. -/
structure Game where
  rows : Nat
  cols : Nat
  mines : Nat
  board : List (List Nat)
  game_over : Bool := false
  won : Bool := false
  cells_flagged : Int := 0
  open_cells : Nat := 0
deriving Repr, DecidableEq

/-- Single-cell update helper: read the cell, apply `f`, store it back. -/
def updCell (g : Game) (r c : Nat) (f : Nat → Nat) : Game :=
  { g with board := setCell g.board r c (f (cellD g.board r c)) }

/-- The byte update of `open_cell`: `board |= 1u << 6`. -/
def open_byte (v : Nat) : Nat := v ||| (1 <<< 6)

/-- The byte update of `toggle_mine`: `board ^= 1u << 7`. -/
def mine_toggle_byte (v : Nat) : Nat := v ^^^ (1 <<< 7)

/-- The byte update of `flag_cell`: `board &= ~(1u << 4); board ^= 1u << 5`
(`~(1u << 4)` truncated to the unsigned char is `255 ^^^ (1 <<< 4)`). -/
def flag_toggle_byte (v : Nat) : Nat := (v &&& (255 ^^^ (1 <<< 4))) ^^^ (1 <<< 5)

/-- The byte update of `mark_cell`: `board &= ~(1u << 5); board ^= 1u << 4`. -/
def mark_toggle_byte (v : Nat) : Nat := (v &&& (255 ^^^ (1 <<< 5))) ^^^ (1 <<< 4)

/-- The byte update of `set_adj_mines_count`: `board &= ~0b1111u; board |= n`. -/
def nib_byte (n v : Nat) : Nat := (v &&& (255 ^^^ 15)) ||| n

/-- `Game::has_mine`: `board_[row][col] & (1u << 7)`. -/
def Game.has_mine (g : Game) (r c : Nat) : Bool :=
  (cellD g.board r c).testBit 7

/-- `Game::is_open`: `board_[row][col] & (1u << 6)`. -/
def Game.is_open (g : Game) (r c : Nat) : Bool :=
  (cellD g.board r c).testBit 6

/-- `Game::has_flag`: `board_[row][col] & (1u << 5)`. -/
def Game.has_flag (g : Game) (r c : Nat) : Bool :=
  (cellD g.board r c).testBit 5

/-- `Game::has_mark`: `board_[row][col] & (1u << 4)`. -/
def Game.has_mark (g : Game) (r c : Nat) : Bool :=
  (cellD g.board r c).testBit 4

/-- `Game::num_adj_mines`: `board_[row][col] & 0b1111u`. -/
def Game.num_adj_mines (g : Game) (r c : Nat) : Nat :=
  cellD g.board r c &&& 15

/-- `Game::is_over`. -/
def Game.is_over (g : Game) : Bool := g.game_over

/-- `Game::has_won`. -/
def Game.has_won (g : Game) : Bool := g.won

/-- `Game::flags`: returns `cells_flagged_`. -/
def Game.flags (g : Game) : Int := g.cells_flagged

/-- `Game::toggle_mine`: `board_[row][col] ^= 1u << 7`. -/
def Game.toggle_mine (g : Game) (r c : Nat) : Game :=
  updCell g r c mine_toggle_byte

/-- `Game::adjacent_cells`: the in-bounds neighbours of `(row, col)`,
generated with `i` from `row-1` to `row+1` and `j` from `col-1` to
`col+1`, skipping the centre, in source order. -/
def Game.adjacent_cells (g : Game) (row col : Nat) : List (Nat × Nat) :=
  (([(row : Int) - 1, (row : Int), (row : Int) + 1].flatMap
      (fun i => [(col : Int) - 1, (col : Int), (col : Int) + 1].map (fun j => (i, j)))).filterMap
    (fun p =>
      if 0 ≤ p.1 ∧ p.1 < (g.rows : Int) ∧ 0 ≤ p.2 ∧ p.2 < (g.cols : Int)
          ∧ ¬(p.1 = (row : Int) ∧ p.2 = (col : Int))
      then some (p.1.toNat, p.2.toNat) else none))

/-- `Game::set_adj_mines_count`: count mined neighbours, then
`board &= ~0b1111u; board |= num_mines` (`~0b1111u` truncated to the
unsigned char is `240 = 255 ^^^ 15`). -/
def Game.set_adj_mines_count (g : Game) (row col : Nat) : Game :=
  let n := ((g.adjacent_cells row col).filter (fun p => g.has_mine p.1 p.2)).length
  updCell g row col (nib_byte n)

/-- The double loop over all cells running `set_adj_mines_count`,
shared by the constructor and by the first-click relocation. -/
def Game.recompute_adj (g : Game) : Game :=
  (List.range g.rows).foldl
    (fun ga i => (List.range g.cols).foldl (fun gb j => gb.set_adj_mines_count i j) ga) g

/-- `Game::flag_cell`: no-op if open; otherwise clear the mark bit
(`&= ~(1u << 4)`, i.e. `&&& (255 ^^^ 16)`), toggle the flag bit
(`^= 1u << 5`), then adjust `cells_flagged_` by the direction of the
toggle, testing the stored byte. -/
def Game.flag_cell (g : Game) (r c : Nat) : Game :=
  if g.is_open r c then g
  else
    let g2 := updCell g r c flag_toggle_byte
    if (cellD g2.board r c).testBit 5 then
      { g2 with cells_flagged := g2.cells_flagged + 1 }
    else
      { g2 with cells_flagged := g2.cells_flagged - 1 }

/-- `Game::mark_cell`: clear the flag bit (`&= ~(1u << 5)`), toggle the
mark bit (`^= 1u << 4`).  No openness check and no counter adjustment in
the source. -/
def Game.mark_cell (g : Game) (r c : Nat) : Game :=
  updCell g r c mark_toggle_byte

/-- Errors escaping a `Game` method: a thrown `BadGameState`, an
out-of-bounds vector access (undefined behaviour in C++, surfaced as an
error here), or exhaustion of the recursion fuel used to model the
flood-fill recursion (never hit with the fuel the wrappers supply). -/
inductive GameError where
  | badGameState (msg : String)
  | outOfBounds
  | noFuel
deriving Repr, DecidableEq

/-- The scan loop body of `Game::first_open_cell`, over an explicit list
of candidate coordinates: return the first whose byte has no mine bit,
reading `board_[i][j]` (an out-of-bounds read is surfaced as
`outOfBounds`); throw `BadGameState` when the candidates run out. -/
def scanSafe (g : Game) : List (Nat × Nat) → Except GameError (Nat × Nat)
  | [] => .error (.badGameState "No safe cells present in board")
  | (i, j) :: rest =>
    match getCell g.board i j with
    | none => .error .outOfBounds
    | some v => if v.testBit 7 then scanSafe g rest else .ok (i, j)

/-- `Game::first_open_cell`.  Note the source iterates
`for (i = 0; i < rows_; ++i) for (j = 0; j < rows_; ++j)`: the inner
bound is `rows_`, not `cols_`, exactly as written in Game.cxx line 238. -/
def Game.first_open_cell (g : Game) : Except GameError (Nat × Nat) :=
  scanSafe g ((List.range g.rows).flatMap (fun i => (List.range g.rows).map (fun j => (i, j))))

/-- The first two statements of the `open_cell` body after the guard:
`board_[row][col] |= 1u << 6; ++open_cells_`. -/
def open_mark (g : Game) (row col : Nat) : Game :=
  { updCell g row col open_byte with open_cells := g.open_cells + 1 }

/-- The first-click relocation block of `open_cell`:
`toggle_mine(open_cell.first, open_cell.second); toggle_mine(row, col);`
followed by the recomputation of every adjacency count. -/
def reloc (g : Game) (row col a b : Nat) : Game :=
  ((g.toggle_mine a b).toggle_mine row col).recompute_adj

/-- The tail of `open_cell`: when the adjacency count is zero, run the
given opener on every neighbour in order, an escaping exception aborting
the rest of the loop (as an exception would in the C++ range-for). -/
def flood_phase (opener : Game → Nat → Nat → Except GameError Game)
    (g : Game) (row col : Nat) : Except GameError Game :=
  if g.num_adj_mines row col = 0 then
    (g.adjacent_cells row col).foldl
      (fun (acc : Except GameError Game) p => acc.bind (fun gg => opener gg p.1 p.2)) (.ok g)
  else .ok g

/-- `Game::open_cell`, with explicit fuel bounding the recursion depth
(the C++ recursion depth is bounded by the number of closed cells; the
wrappers pass more than `rows*cols`).  Faithful to the source: guard on
open/flag/mark, set the opened bit, bump `open_cells_`; on a mine either
relocate (first open) or set `game_over_` and return; then flood-fill
neighbours when the adjacency count is zero. -/
def open_cell_fuel : Nat → Game → Nat → Nat → Except GameError Game
  | 0, _, _, _ => .error .noFuel
  | fuel + 1, g, row, col =>
    if g.is_open row col ∨ g.has_flag row col ∨ g.has_mark row col then .ok g
    else
      if (open_mark g row col).has_mine row col then
        if (open_mark g row col).open_cells = 1 then
          match (open_mark g row col).first_open_cell with
          | .error e => .error e
          | .ok (a, b) =>
            flood_phase (open_cell_fuel fuel) (reloc (open_mark g row col) row col a b) row col
        else .ok { open_mark g row col with game_over := true }
      else flood_phase (open_cell_fuel fuel) (open_mark g row col) row col

/-- Public `Game::open_cell` (fuel instantiated; `rows*cols + 1` strictly
exceeds the number of closed cells, so the fuel is never exhausted on
well-formed boards). -/
def Game.open_cell (g : Game) (row col : Nat) : Except GameError Game :=
  open_cell_fuel (g.rows * g.cols + 1) g row col

/-- `Game::chord_cell`: no-op unless the cell is open; count flagged
neighbours; unless that equals the stored adjacency count, no-op;
otherwise `open_cell` every neighbour in order. -/
def Game.chord_cell (g : Game) (row col : Nat) : Except GameError Game :=
  if ¬g.is_open row col then .ok g
  else
    if ((g.adjacent_cells row col).filter (fun p => g.has_flag p.1 p.2)).length
        ≠ g.num_adj_mines row col then .ok g
    else
      (g.adjacent_cells row col).foldl
        (fun (acc : Except GameError Game) p =>
          acc.bind (fun gg => open_cell_fuel (g.rows * g.cols + 1) gg p.1 p.2)) (.ok g)

/-- The body of the auto-flag double loop of `check_win`:
`if (has_mine(i, j) && !has_flag(i, j)) flag_cell(i, j);`. -/
def autoflag_cell (g : Game) (i j : Nat) : Game :=
  if g.has_mine i j ∧ ¬g.has_flag i j then g.flag_cell i j else g

/-- `Game::check_win`: when `open_cells_ + mines_ == rows_ * cols_` and
the acted-on cell has no mine, set `won_` and `game_over_` and auto-flag
every mined unflagged cell through `flag_cell`; otherwise do nothing. -/
def Game.check_win (g : Game) (row col : Nat) : Game :=
  if g.open_cells + g.mines = g.rows * g.cols ∧ ¬g.has_mine row col then
    let g2 := { g with won := true, game_over := true }
    (List.range g.rows).foldl
      (fun ga i => (List.range g.cols).foldl (fun gb j => autoflag_cell gb i j) ga) g2
  else g

/-- The `Game::Game` constructor, with the shuffled sequence made
explicit: the C++ fills `cells = [0 .. rows*cols-1]`, shuffles it with a
`std::mt19937` seeded from `std::random_device`, and toggles a mine at
`cells[i] / cols, cells[i] % cols` for `i < mines`; then computes every
adjacency count.  `perm` stands for the shuffled sequence. -/
def mkGame (rows cols mines : Nat) (perm : List Nat) : Game :=
  let g0 : Game := { rows := rows, cols := cols, mines := mines,
                     board := List.replicate rows (List.replicate cols 0) }
  (((perm.take mines).foldl (fun g idx => g.toggle_mine (idx / cols) (idx % cols)) g0)).recompute_adj

/-- All coordinates of a `rows x cols` board in row-major order. -/
def allCells (rows cols : Nat) : List (Nat × Nat) :=
  (List.range rows).flatMap (fun i => (List.range cols).map (fun j => (i, j)))

/-- Number of board cells whose mine bit is set. -/
def mine_count (g : Game) : Nat :=
  (allCells g.rows g.cols).countP (fun p => g.has_mine p.1 p.2)

/-- Number of board cells whose flag bit is set. -/
def flag_count (g : Game) : Nat :=
  (allCells g.rows g.cols).countP (fun p => g.has_flag p.1 p.2)

/-- Number of board cells whose opened bit is clear. -/
def closed_count (g : Game) : Nat :=
  (allCells g.rows g.cols).countP (fun p => !g.is_open p.1 p.2)

/-- The representation invariant of `board_`: a `rows_ x cols_` vector of
vectors, established by the constructor and preserved by every method. -/
def WF (g : Game) : Prop :=
  g.board.length = g.rows ∧ ∀ row ∈ g.board, row.length = g.cols

/-- Specification helper (not from the source): the net effect of the
auto-flag pass of `check_win` on one packed byte — a mined, unflagged,
closed cell gets the `flag_cell` byte update; everything else is left
alone (`flag_cell` refuses open cells). -/
def autoflag_byte (v : Nat) : Nat :=
  if v.testBit 7 = true ∧ ¬v.testBit 5 = true then
    (if v.testBit 6 = true then v else flag_toggle_byte v)
  else v

/-- Specification helper: the cells the auto-flag pass actually flags
(mined, closed, unflagged). -/
def newly_flagged (g : Game) (p : Nat × Nat) : Bool :=
  g.has_mine p.1 p.2 && !g.is_open p.1 p.2 && !g.has_flag p.1 p.2

/-- Specification helper: how an intermediate state of a mine-free flood
fill relates to the state `g0` at the moment of the click — opened bits
only ever grow, every other observable is untouched. -/
def flood_rel (g0 g : Game) : Prop :=
  g.rows = g0.rows ∧ g.cols = g0.cols ∧ g.game_over = g0.game_over ∧ g.won = g0.won ∧
  g.cells_flagged = g0.cells_flagged ∧ WF g ∧
  (∀ x y, g.has_flag x y = g0.has_flag x y ∧ g.has_mark x y = g0.has_mark x y ∧
    g.has_mine x y = g0.has_mine x y ∧ g.num_adj_mines x y = g0.num_adj_mines x y) ∧
  (∀ x y, g0.is_open x y = true → g.is_open x y = true)

/-- The per-cell mutual exclusions the methods maintain: an open cell is
never flagged, and a flagged cell is never marked.  (`is_open ∧
has_mark` is deliberately absent: `mark_cell` checks no openness.) -/
def excl_inv (g : Game) : Prop :=
  ∀ i j : Nat, ¬(g.is_open i j = true ∧ g.has_flag i j = true) ∧
    ¬(g.has_flag i j = true ∧ g.has_mark i j = true)

instance (g : Game) : Decidable (WF g) := by unfold WF; infer_instance

/-- Number of mined neighbours of a cell (the quantity
`set_adj_mines_count` stores in the low nibble). -/
def mined_neighbors (g : Game) (r c : Nat) : Nat :=
  ((g.adjacent_cells r c).filter (fun p => g.has_mine p.1 p.2)).length

/-- Every stored adjacency nibble equals the live count of mined
neighbours. -/
def adj_correct (g : Game) : Prop :=
  ∀ p ∈ allCells g.rows g.cols, g.num_adj_mines p.1 p.2 = mined_neighbors g p.1 p.2

instance (g : Game) : Decidable (adj_correct g) := by
  unfold adj_correct; infer_instance

/-- The command interface of the `Game` class: the mutating methods a
consumer can invoke (play.cxx dispatches exactly these). -/
inductive Cmd where
  | opn (r c : Nat)
  | chord (r c : Nat)
  | flag (r c : Nat)
  | mark (r c : Nat)
  | checkwin (r c : Nat)
deriving Repr, DecidableEq

/-- Apply one command to the state. -/
def step (g : Game) : Cmd → Except GameError Game
  | .opn r c => g.open_cell r c
  | .chord r c => g.chord_cell r c
  | .flag r c => .ok (g.flag_cell r c)
  | .mark r c => .ok (g.mark_cell r c)
  | .checkwin r c => .ok (g.check_win r c)

/-- The coordinates a command acts on. -/
def Cmd.coords : Cmd → Nat × Nat
  | .opn r c => (r, c)
  | .chord r c => (r, c)
  | .flag r c => (r, c)
  | .mark r c => (r, c)
  | .checkwin r c => (r, c)

/-- The consumer keeps the cursor within the board (play.cxx clamps the
cursor to `[0, rows) x [0, cols)`), so commands carry in-bounds
coordinates. -/
def cmd_in_bounds (g : Game) (cmd : Cmd) : Prop :=
  cmd.coords.1 < g.rows ∧ cmd.coords.2 < g.cols

/-- States reachable from a constructed game by any sequence of
successful in-bounds commands. -/
inductive Reachable (init : Game) : Game → Prop where
  | init : Reachable init init
  | step {g g2 : Game} (cmd : Cmd) : Reachable init g → cmd_in_bounds g cmd →
      step g cmd = .ok g2 → Reachable init g2

/-- States reachable as in `Reachable`, by sequences that never apply
`mark_cell` to a cell currently flagged. -/
inductive ReachableNoMarkOnFlag (init : Game) : Game → Prop where
  | init : ReachableNoMarkOnFlag init init
  | step {g g2 : Game} (cmd : Cmd) : ReachableNoMarkOnFlag init g →
      cmd_in_bounds g cmd →
      (∀ r c, cmd = .mark r c → g.has_flag r c = false) →
      step g cmd = .ok g2 → ReachableNoMarkOnFlag init g2

/-- One iteration of the interactive loop in play.cxx (`new_game`): the
loop runs `while (!game.is_over())`, so when the game is over no command
is dispatched at all; otherwise the keyed command runs. -/
def loop_step (g : Game) (cmd : Cmd) : Except GameError Game :=
  if g.is_over then .ok g else step g cmd

/-- Modelled from the spec: play.cxx invokes a seeded constructor
overload `Game{rows, cols, mines, seed}` (and a `seed()` accessor) whose
implementation is not among the provided sources; per the spec the
shuffle is "seeded for reproducibility if a seed is supplied".  A
deterministic 64-bit linear congruential generator stands in for the
seeded `std::mt19937`. -/
def lcg_next (s : Nat) : Nat :=
  (6364136223846793005 * s + 1442695040888963407) % (2 ^ 64)

/-- Modelled from the spec: the seeded shuffle of `0 .. n-1`, a
deterministic permutation driven by `lcg_next` from the supplied seed
(each element is inserted at a pseudo-random position). -/
def seed_perm (seed n : Nat) : List Nat :=
  ((List.range n).foldl
    (fun st i =>
      let s := lcg_next st.2
      (st.1.insertIdx (s % (i + 1)) i, s))
    (([] : List Nat), seed)).1

/-- Modelled from the spec: the seeded constructor overload used by
play.cxx — identical to `Game::Game` except that the shuffled sequence
comes deterministically from the supplied seed. -/
def mkGameSeeded (rows cols mines seed : Nat) : Game :=
  mkGame rows cols mines (seed_perm seed (rows * cols))

/-- The region the zero-expansion flood fill explores from a clicked
cell `(r, c)` of state `g`: the clicked cell itself, plus, transitively,
every neighbour of an in-region closed, unflagged, unmarked cell with a
zero adjacency nibble, provided that neighbour is itself closed,
unflagged and unmarked.  (All conditions refer to the state `g` at the
moment of the click: the fill only sets opened bits.) -/
inductive InRegion (g : Game) (r c : Nat) : Nat → Nat → Prop where
  | base : InRegion g r c r c
  | step {a b x y : Nat} : InRegion g r c a b →
      g.is_open a b = false → g.has_flag a b = false → g.has_mark a b = false →
      g.num_adj_mines a b = 0 →
      (x, y) ∈ g.adjacent_cells a b →
      g.is_open x y = false → g.has_flag x y = false → g.has_mark x y = false →
      InRegion g r c x y

end Termmine

/-! ## Theorems -/

namespace Termmine

/-! ### Nibble and bit lemmas for the byte operations -/

theorem and15_and_mask (v w : Nat) (hw : w &&& 15 = 15) : (v &&& w) &&& 15 = v &&& 15 := by
  rw [Nat.land_assoc, hw]

theorem and15_xor_mask (v w : Nat) (hw : w &&& 15 = 0) : (v ^^^ w) &&& 15 = v &&& 15 := by
  rw [Nat.and_xor_distrib_right, hw, Nat.xor_zero]

theorem and15_or_mask (v w : Nat) (hw : w &&& 15 = 0) : (v ||| w) &&& 15 = v &&& 15 := by
  rw [Nat.and_comm _ 15, Nat.and_or_distrib_left, Nat.and_comm 15 v, Nat.and_comm 15 w, hw,
    Nat.or_zero]

theorem open_byte_bit7 (v : Nat) : (open_byte v).testBit 7 = v.testBit 7 := by
  have h : Nat.testBit 64 7 = false := by decide
  simp [open_byte, Nat.testBit_or, h]

theorem open_byte_bit6 (v : Nat) : (open_byte v).testBit 6 = true := by
  have h : Nat.testBit 64 6 = true := by decide
  simp [open_byte, Nat.testBit_or, h]

theorem open_byte_bit5 (v : Nat) : (open_byte v).testBit 5 = v.testBit 5 := by
  have h : Nat.testBit 64 5 = false := by decide
  simp [open_byte, Nat.testBit_or, h]

theorem open_byte_bit4 (v : Nat) : (open_byte v).testBit 4 = v.testBit 4 := by
  have h : Nat.testBit 64 4 = false := by decide
  simp [open_byte, Nat.testBit_or, h]

theorem open_byte_nib (v : Nat) : open_byte v &&& 15 = v &&& 15 :=
  and15_or_mask v _ (by decide)

theorem mine_toggle_bit7 (v : Nat) : (mine_toggle_byte v).testBit 7 = !v.testBit 7 := by
  have h : Nat.testBit 128 7 = true := by decide
  simp [mine_toggle_byte, Nat.testBit_xor, h]

theorem mine_toggle_bit6 (v : Nat) : (mine_toggle_byte v).testBit 6 = v.testBit 6 := by
  have h : Nat.testBit 128 6 = false := by decide
  simp [mine_toggle_byte, Nat.testBit_xor, h]

theorem mine_toggle_bit5 (v : Nat) : (mine_toggle_byte v).testBit 5 = v.testBit 5 := by
  have h : Nat.testBit 128 5 = false := by decide
  simp [mine_toggle_byte, Nat.testBit_xor, h]

theorem mine_toggle_bit4 (v : Nat) : (mine_toggle_byte v).testBit 4 = v.testBit 4 := by
  have h : Nat.testBit 128 4 = false := by decide
  simp [mine_toggle_byte, Nat.testBit_xor, h]

theorem mine_toggle_nib (v : Nat) : mine_toggle_byte v &&& 15 = v &&& 15 :=
  and15_xor_mask v _ (by decide)

theorem flag_toggle_bit7 (v : Nat) : (flag_toggle_byte v).testBit 7 = v.testBit 7 := by
  have h1 : Nat.testBit 239 7 = true := by decide
  have h2 : Nat.testBit 32 7 = false := by decide
  simp [flag_toggle_byte, Nat.testBit_xor, Nat.testBit_and, h1, h2]

theorem flag_toggle_bit6 (v : Nat) : (flag_toggle_byte v).testBit 6 = v.testBit 6 := by
  have h1 : Nat.testBit 239 6 = true := by decide
  have h2 : Nat.testBit 32 6 = false := by decide
  simp [flag_toggle_byte, Nat.testBit_xor, Nat.testBit_and, h1, h2]

theorem flag_toggle_bit5 (v : Nat) : (flag_toggle_byte v).testBit 5 = !v.testBit 5 := by
  have h1 : Nat.testBit 239 5 = true := by decide
  have h2 : Nat.testBit 32 5 = true := by decide
  simp [flag_toggle_byte, Nat.testBit_xor, Nat.testBit_and, h1, h2]

theorem flag_toggle_bit4 (v : Nat) : (flag_toggle_byte v).testBit 4 = false := by
  have h1 : Nat.testBit 239 4 = false := by decide
  have h2 : Nat.testBit 32 4 = false := by decide
  simp [flag_toggle_byte, Nat.testBit_xor, Nat.testBit_and, h1, h2]

theorem flag_toggle_nib (v : Nat) : flag_toggle_byte v &&& 15 = v &&& 15 := by
  unfold flag_toggle_byte
  rw [and15_xor_mask _ _ (by decide), and15_and_mask _ _ (by decide)]

theorem mark_toggle_bit7 (v : Nat) : (mark_toggle_byte v).testBit 7 = v.testBit 7 := by
  have h1 : Nat.testBit 223 7 = true := by decide
  have h2 : Nat.testBit 16 7 = false := by decide
  simp [mark_toggle_byte, Nat.testBit_xor, Nat.testBit_and, h1, h2]

theorem mark_toggle_bit6 (v : Nat) : (mark_toggle_byte v).testBit 6 = v.testBit 6 := by
  have h1 : Nat.testBit 223 6 = true := by decide
  have h2 : Nat.testBit 16 6 = false := by decide
  simp [mark_toggle_byte, Nat.testBit_xor, Nat.testBit_and, h1, h2]

theorem mark_toggle_bit5 (v : Nat) : (mark_toggle_byte v).testBit 5 = false := by
  have h1 : Nat.testBit 223 5 = false := by decide
  have h2 : Nat.testBit 16 5 = false := by decide
  simp [mark_toggle_byte, Nat.testBit_xor, Nat.testBit_and, h1, h2]

theorem mark_toggle_bit4 (v : Nat) : (mark_toggle_byte v).testBit 4 = !v.testBit 4 := by
  have h1 : Nat.testBit 223 4 = true := by decide
  have h2 : Nat.testBit 16 4 = true := by decide
  simp [mark_toggle_byte, Nat.testBit_xor, Nat.testBit_and, h1, h2]

theorem mark_toggle_nib (v : Nat) : mark_toggle_byte v &&& 15 = v &&& 15 := by
  unfold mark_toggle_byte
  rw [and15_xor_mask _ _ (by decide), and15_and_mask _ _ (by decide)]

theorem nib_byte_bit7 (n v : Nat) (hn : n < 16) : (nib_byte n v).testBit 7 = v.testBit 7 := by
  have h1 : Nat.testBit 240 7 = true := by decide
  have h2 : n.testBit 7 = false := Nat.testBit_lt_two_pow (lt_of_lt_of_le hn (by norm_num))
  simp [nib_byte, Nat.testBit_or, Nat.testBit_and, h1, h2]

theorem nib_byte_bit6 (n v : Nat) (hn : n < 16) : (nib_byte n v).testBit 6 = v.testBit 6 := by
  have h1 : Nat.testBit 240 6 = true := by decide
  have h2 : n.testBit 6 = false := Nat.testBit_lt_two_pow (lt_of_lt_of_le hn (by norm_num))
  simp [nib_byte, Nat.testBit_or, Nat.testBit_and, h1, h2]

theorem nib_byte_bit5 (n v : Nat) (hn : n < 16) : (nib_byte n v).testBit 5 = v.testBit 5 := by
  have h1 : Nat.testBit 240 5 = true := by decide
  have h2 : n.testBit 5 = false := Nat.testBit_lt_two_pow (lt_of_lt_of_le hn (by norm_num))
  simp [nib_byte, Nat.testBit_or, Nat.testBit_and, h1, h2]

theorem nib_byte_bit4 (n v : Nat) (hn : n < 16) : (nib_byte n v).testBit 4 = v.testBit 4 := by
  have h1 : Nat.testBit 240 4 = true := by decide
  have h2 : n.testBit 4 = false := Nat.testBit_lt_two_pow (lt_of_lt_of_le hn (by norm_num))
  simp [nib_byte, Nat.testBit_or, Nat.testBit_and, h1, h2]

theorem nib_byte_nib (n v : Nat) (hn : n < 16) : nib_byte n v &&& 15 = n := by
  unfold nib_byte
  rw [Nat.and_comm _ 15, Nat.and_or_distrib_left, Nat.and_comm 15 _, Nat.and_comm 15 n,
    Nat.land_assoc]
  have h0 : ((255 : Nat) ^^^ 15) &&& 15 = 0 := by decide
  rw [h0, Nat.and_zero, Nat.zero_or]
  have : (15 : Nat) = 2 ^ 4 - 1 := by decide
  rw [this, Nat.and_pow_two_sub_one_eq_mod]
  exact Nat.mod_eq_of_lt hn

/-! ### Board access lemmas -/

@[simp] theorem updCell_rows (g : Game) (r c : Nat) (f : Nat → Nat) :
    (updCell g r c f).rows = g.rows := rfl

@[simp] theorem updCell_cols (g : Game) (r c : Nat) (f : Nat → Nat) :
    (updCell g r c f).cols = g.cols := rfl

@[simp] theorem updCell_mines (g : Game) (r c : Nat) (f : Nat → Nat) :
    (updCell g r c f).mines = g.mines := rfl

@[simp] theorem updCell_game_over (g : Game) (r c : Nat) (f : Nat → Nat) :
    (updCell g r c f).game_over = g.game_over := rfl

@[simp] theorem updCell_won (g : Game) (r c : Nat) (f : Nat → Nat) :
    (updCell g r c f).won = g.won := rfl

@[simp] theorem updCell_cells_flagged (g : Game) (r c : Nat) (f : Nat → Nat) :
    (updCell g r c f).cells_flagged = g.cells_flagged := rfl

@[simp] theorem updCell_open_cells (g : Game) (r c : Nat) (f : Nat → Nat) :
    (updCell g r c f).open_cells = g.open_cells := rfl

theorem cellD_setCell_ne (b : List (List Nat)) (r c v i j : Nat) (h : ¬(i = r ∧ j = c)) :
    cellD (setCell b r c v) i j = cellD b i j := by
  unfold cellD setCell
  simp only [List.getD_eq_getElem?_getD]
  by_cases hir : i = r
  · subst hir
    have hjc : c ≠ j := fun hc => h ⟨rfl, hc.symm⟩
    by_cases hlen : i < b.length
    · rw [List.getElem?_set_self hlen, Option.getD_some, List.getElem?_set_ne hjc]
    · rw [List.set_eq_of_length_le (Nat.le_of_not_lt hlen)]
  · have : r ≠ i := fun hc => hir hc.symm
    rw [List.getElem?_set_ne this]

theorem cellD_setCell_self (b : List (List Nat)) (r c v : Nat)
    (hr : r < b.length) (hc : c < (b.getD r []).length) :
    cellD (setCell b r c v) r c = v := by
  unfold cellD setCell
  simp only [List.getD_eq_getElem?_getD] at hc ⊢
  rw [List.getElem?_set_self hr, Option.getD_some, List.getElem?_set_self hc, Option.getD_some]

@[simp] theorem setCell_length (b : List (List Nat)) (r c v : Nat) :
    (setCell b r c v).length = b.length := List.length_set b r _

theorem WF_row_len {g : Game} (h : WF g) {r : Nat} (hr : r < g.rows) :
    (g.board.getD r []).length = g.cols := by
  obtain ⟨hlen, hrows⟩ := h
  have hr2 : r < g.board.length := by omega
  rw [List.getD_eq_getElem?_getD, List.getElem?_eq_getElem hr2, Option.getD_some]
  exact hrows _ (List.getElem_mem hr2)

theorem WF_updCell {g : Game} (hwf : WF g) (r c : Nat) (f : Nat → Nat) :
    WF (updCell g r c f) := by
  obtain ⟨hlen, hrows⟩ := hwf
  constructor
  · simpa [updCell] using hlen
  · intro row hrow
    show row.length = g.cols
    simp only [updCell, setCell] at hrow
    by_cases hr : r < g.board.length
    · rcases List.mem_or_eq_of_mem_set hrow with h | h
      · exact hrows _ h
      · subst h
        rw [List.length_set, List.getD_eq_getElem?_getD, List.getElem?_eq_getElem hr,
          Option.getD_some]
        exact hrows _ (List.getElem_mem hr)
    · rw [List.set_eq_of_length_le (Nat.le_of_not_lt hr)] at hrow
      exact hrows _ hrow

/-- The workhorse: an in-bounds single-cell update, observed through
`cellD`. -/
theorem cellD_updCell {g : Game} (hwf : WF g) {r c : Nat} (hr : r < g.rows) (hc : c < g.cols)
    (f : Nat → Nat) (i j : Nat) :
    cellD (updCell g r c f).board i j =
      if i = r ∧ j = c then f (cellD g.board r c) else cellD g.board i j := by
  by_cases h : i = r ∧ j = c
  · obtain ⟨hi, hj⟩ := h
    subst hi; subst hj
    rw [if_pos ⟨rfl, rfl⟩]
    exact cellD_setCell_self _ _ _ _ (by have := hwf.1; omega)
      (by rw [WF_row_len hwf hr]; exact hc)
  · rw [if_neg h]
    exact cellD_setCell_ne _ _ _ _ _ _ h

/-! ### Generic fold and counting lemmas -/

theorem foldl_preserve_mem {α : Type} (P : Game → Prop) (f : Game → α → Game) :
    ∀ (l : List α) (g : Game), (∀ g2 x, x ∈ l → P g2 → P (f g2 x)) → P g → P (l.foldl f g)
  | [], _, _, hg => hg
  | x :: rest, g, hf, hg =>
    foldl_preserve_mem P f rest (f g x)
      (fun g2 y hy => hf g2 y (List.mem_cons_of_mem _ hy))
      (hf g x (List.mem_cons_self _ _) hg)

theorem except_foldl_error {α : Type} (f : Game → α → Except GameError Game) (e : GameError) :
    ∀ l : List α,
      l.foldl (fun (acc : Except GameError Game) p => acc.bind (fun gg => f gg p)) (.error e)
        = .error e
  | [] => rfl
  | _ :: rest => except_foldl_error f e rest

theorem except_foldl_preserve {α : Type} (P : Game → Prop)
    (f : Game → α → Except GameError Game)
    (hf : ∀ g p g2, P g → f g p = .ok g2 → P g2) :
    ∀ (l : List α) (g g2 : Game), P g →
      l.foldl (fun (acc : Except GameError Game) p => acc.bind (fun gg => f gg p)) (.ok g)
        = .ok g2 → P g2
  | [], g, g2, hg, h => by
    simp only [List.foldl_nil] at h
    cases h
    exact hg
  | x :: rest, g, g2, hg, h => by
    have h2 : rest.foldl (fun (acc : Except GameError Game) p => acc.bind (fun gg => f gg p))
        (f g x) = .ok g2 := h
    cases hx : f g x with
    | error e =>
      rw [hx, except_foldl_error] at h2
      simp at h2
    | ok g1 =>
      rw [hx] at h2
      exact except_foldl_preserve P f hf rest g1 g2 (hf g x g1 hg hx) h2

theorem countP_eq_of_agree {α : Type} {l : List α} {p q : α → Bool}
    (h : ∀ a ∈ l, q a = p a) : l.countP q = l.countP p :=
  List.countP_congr (fun a ha => by rw [h a ha])

/-- Counting when the predicate flips from false to true at exactly one
element of a duplicate-free list. -/
theorem countP_flip_true {α : Type} [DecidableEq α] {l : List α} (hnd : l.Nodup) {x : α}
    (hx : x ∈ l) {p q : α → Bool} (hne : ∀ a ∈ l, a ≠ x → q a = p a)
    (hpx : p x = false) (hqx : q x = true) :
    l.countP q = l.countP p + 1 := by
  have hperm := List.perm_cons_erase hx
  rw [List.Perm.countP_eq q hperm, List.Perm.countP_eq p hperm, List.countP_cons,
    List.countP_cons, hpx, hqx]
  have hagree : ∀ a ∈ l.erase x, q a = p a := by
    intro a ha
    obtain ⟨hne2, hal⟩ := (List.Nodup.mem_erase_iff hnd).1 ha
    exact hne a hal hne2
  rw [countP_eq_of_agree hagree]
  simp [Nat.add_assoc]

/-! ### allCells lemmas -/

theorem mem_allCells {rows cols : Nat} {p : Nat × Nat} :
    p ∈ allCells rows cols ↔ p.1 < rows ∧ p.2 < cols := by
  obtain ⟨i, j⟩ := p
  unfold allCells
  rw [List.mem_flatMap]
  constructor
  · rintro ⟨a, ha, hmem⟩
    rw [List.mem_map] at hmem
    obtain ⟨b, hb, he⟩ := hmem
    injection he with h1 h2
    subst h1; subst h2
    exact ⟨List.mem_range.1 ha, List.mem_range.1 hb⟩
  · rintro ⟨hi, hj⟩
    exact ⟨i, List.mem_range.2 hi, List.mem_map.2 ⟨j, List.mem_range.2 hj, rfl⟩⟩

theorem nodup_allCells (rows cols : Nat) : (allCells rows cols).Nodup := by
  unfold allCells
  rw [List.nodup_flatMap]
  constructor
  · intro i _
    exact (List.nodup_range cols).map (fun a b h => by injection h)
  · have hpw : (List.range rows).Pairwise (· ≠ ·) :=
      (List.nodup_range rows).imp (fun h => h)
    refine hpw.imp ?_
    intro a b hab
    intro q hqa hqb
    rw [List.mem_map] at hqa hqb
    obtain ⟨j1, _, he1⟩ := hqa
    obtain ⟨j2, _, he2⟩ := hqb
    apply hab
    rw [← he1] at he2
    injection he2 with h1 _
    exact h1.symm

theorem length_allCells (rows cols : Nat) : (allCells rows cols).length = rows * cols := by
  unfold allCells
  rw [List.length_flatMap]
  rw [show (List.length ∘ fun i : Nat => List.map (fun j => (i, j)) (List.range cols))
      = fun _ : Nat => cols from funext (fun i => by simp)]
  simp [List.map_const]

/-! ### Out-of-bounds and observer lemmas -/

theorem set_getD_self (b : List (List Nat)) (r : Nat) (hr : r < b.length) :
    b.set r (b.getD r []) = b := by
  apply List.ext_getElem?
  intro n
  by_cases h : r = n
  · subst h
    rw [List.getElem?_set_self hr, List.getElem?_eq_getElem hr]
    congr 1
    rw [List.getD_eq_getElem?_getD, List.getElem?_eq_getElem hr, Option.getD_some]
  · rw [List.getElem?_set_ne h]

theorem updCell_board_oob {g : Game} (hwf : WF g) {r c : Nat}
    (h : ¬(r < g.rows ∧ c < g.cols)) (f : Nat → Nat) :
    (updCell g r c f).board = g.board := by
  show g.board.set r ((g.board.getD r []).set c (f (cellD g.board r c))) = g.board
  by_cases hr : r < g.rows
  · have hc : ¬ c < g.cols := fun hc => h ⟨hr, hc⟩
    have hrow : (g.board.getD r []).set c (f (cellD g.board r c)) = g.board.getD r [] :=
      List.set_eq_of_length_le (by rw [WF_row_len hwf hr]; omega)
    rw [hrow]
    exact set_getD_self _ _ (by have := hwf.1; omega)
  · exact List.set_eq_of_length_le (by have := hwf.1; omega)

theorem cellD_eq_zero_oob {g : Game} (hwf : WF g) {r c : Nat}
    (h : ¬(r < g.rows ∧ c < g.cols)) : cellD g.board r c = 0 := by
  unfold cellD
  by_cases hr : r < g.rows
  · have hc : ¬ c < g.cols := fun hc => h ⟨hr, hc⟩
    have hlen : (g.board.getD r []).length = g.cols := WF_row_len hwf hr
    rw [List.getD_eq_getElem?_getD, List.getElem?_eq_none (by omega), Option.getD_none]
  · have hnil : g.board.getD r [] = [] := by
      rw [List.getD_eq_getElem?_getD, List.getElem?_eq_none (by have := hwf.1; omega),
        Option.getD_none]
    rw [hnil, List.getD_nil]

theorem has_mine_updCell {g : Game} (hwf : WF g) {r c : Nat} (hr : r < g.rows) (hc : c < g.cols)
    (f : Nat → Nat) (i j : Nat) :
    (updCell g r c f).has_mine i j =
      if i = r ∧ j = c then (f (cellD g.board r c)).testBit 7 else g.has_mine i j := by
  unfold Game.has_mine
  rw [cellD_updCell hwf hr hc]
  by_cases h : i = r ∧ j = c
  · rw [if_pos h, if_pos h]
  · rw [if_neg h, if_neg h]

theorem is_open_updCell {g : Game} (hwf : WF g) {r c : Nat} (hr : r < g.rows) (hc : c < g.cols)
    (f : Nat → Nat) (i j : Nat) :
    (updCell g r c f).is_open i j =
      if i = r ∧ j = c then (f (cellD g.board r c)).testBit 6 else g.is_open i j := by
  unfold Game.is_open
  rw [cellD_updCell hwf hr hc]
  by_cases h : i = r ∧ j = c
  · rw [if_pos h, if_pos h]
  · rw [if_neg h, if_neg h]

theorem has_flag_updCell {g : Game} (hwf : WF g) {r c : Nat} (hr : r < g.rows) (hc : c < g.cols)
    (f : Nat → Nat) (i j : Nat) :
    (updCell g r c f).has_flag i j =
      if i = r ∧ j = c then (f (cellD g.board r c)).testBit 5 else g.has_flag i j := by
  unfold Game.has_flag
  rw [cellD_updCell hwf hr hc]
  by_cases h : i = r ∧ j = c
  · rw [if_pos h, if_pos h]
  · rw [if_neg h, if_neg h]

theorem has_mark_updCell {g : Game} (hwf : WF g) {r c : Nat} (hr : r < g.rows) (hc : c < g.cols)
    (f : Nat → Nat) (i j : Nat) :
    (updCell g r c f).has_mark i j =
      if i = r ∧ j = c then (f (cellD g.board r c)).testBit 4 else g.has_mark i j := by
  unfold Game.has_mark
  rw [cellD_updCell hwf hr hc]
  by_cases h : i = r ∧ j = c
  · rw [if_pos h, if_pos h]
  · rw [if_neg h, if_neg h]

theorem num_adj_updCell {g : Game} (hwf : WF g) {r c : Nat} (hr : r < g.rows) (hc : c < g.cols)
    (f : Nat → Nat) (i j : Nat) :
    (updCell g r c f).num_adj_mines i j =
      if i = r ∧ j = c then f (cellD g.board r c) &&& 15 else g.num_adj_mines i j := by
  unfold Game.num_adj_mines
  rw [cellD_updCell hwf hr hc]
  by_cases h : i = r ∧ j = c
  · rw [if_pos h, if_pos h]
  · rw [if_neg h, if_neg h]

theorem cellD_eq_of_getCell {b : List (List Nat)} {r c v : Nat} (h : getCell b r c = some v) :
    cellD b r c = v := by
  unfold getCell at h
  unfold cellD
  cases hb : b[r]? with
  | none => rw [hb] at h; simp at h
  | some row =>
    rw [hb] at h
    simp only [Option.some_bind] at h
    have hrow : b.getD r [] = row := by
      rw [List.getD_eq_getElem?_getD, hb, Option.getD_some]
    rw [hrow, List.getD_eq_getElem?_getD, h, Option.getD_some]

theorem getCell_bounds {g : Game} (hwf : WF g) {r c v : Nat}
    (h : getCell g.board r c = some v) : r < g.rows ∧ c < g.cols := by
  unfold getCell at h
  cases hb : g.board[r]? with
  | none => rw [hb] at h; simp at h
  | some row =>
    rw [hb] at h
    simp only [Option.some_bind] at h
    have hr : r < g.board.length := by
      by_contra hr2
      rw [List.getElem?_eq_none (by omega)] at hb
      cases hb
    obtain ⟨hlt, heq⟩ := List.getElem?_eq_some_iff.1 hb
    have hmem : row ∈ g.board := heq ▸ List.getElem_mem hlt
    have hrowlen : row.length = g.cols := hwf.2 row hmem
    have hc : c < row.length := by
      by_contra hc2
      rw [List.getElem?_eq_none (by omega)] at h
      cases h
    exact ⟨by have := hwf.1; omega, by omega⟩

theorem scanSafe_ok {g : Game} : ∀ {l : List (Nat × Nat)} {a b : Nat},
    scanSafe g l = .ok (a, b) → getCell g.board a b ≠ none ∧ g.has_mine a b = false := by
  intro l
  induction l with
  | nil => intro a b h; simp [scanSafe] at h
  | cons p rest ih =>
    intro a b h
    obtain ⟨i, j⟩ := p
    rw [scanSafe] at h
    cases hcell : getCell g.board i j with
    | none =>
      rw [hcell] at h
      have h2 : (Except.error GameError.outOfBounds : Except GameError (Nat × Nat))
          = .ok (a, b) := h
      simp at h2
    | some v =>
      rw [hcell] at h
      have h2 : (if v.testBit 7 = true then scanSafe g rest else
          (.ok (i, j) : Except GameError (Nat × Nat))) = .ok (a, b) := h
      by_cases hb : v.testBit 7 = true
      · rw [if_pos hb] at h2
        exact ih h2
      · rw [if_neg hb] at h2
        injection h2 with h3
        cases h3
        refine ⟨by rw [hcell]; simp, ?_⟩
        unfold Game.has_mine
        rw [cellD_eq_of_getCell hcell]
        simpa using hb

/-- What a successful `first_open_cell` guarantees about its result: the
cell exists on the board and carries no mine. -/
theorem first_open_cell_ok {g : Game} {a b : Nat} (h : g.first_open_cell = .ok (a, b)) :
    getCell g.board a b ≠ none ∧ g.has_mine a b = false :=
  scanSafe_ok h

theorem adjacent_cells_bounds (g : Game) (r c : Nat) {p : Nat × Nat}
    (hp : p ∈ g.adjacent_cells r c) : p.1 < g.rows ∧ p.2 < g.cols := by
  unfold Game.adjacent_cells at hp
  rw [List.mem_filterMap] at hp
  obtain ⟨q, _, hval⟩ := hp
  by_cases hcond : 0 ≤ q.1 ∧ q.1 < (g.rows : Int) ∧ 0 ≤ q.2 ∧ q.2 < (g.cols : Int)
      ∧ ¬(q.1 = (r : Int) ∧ q.2 = (c : Int))
  · rw [if_pos hcond] at hval
    obtain ⟨h1, h2, h3, h4, _⟩ := hcond
    injection hval with hval
    subst hval
    exact ⟨by omega, by omega⟩
  · rw [if_neg hcond] at hval
    cases hval

theorem adjacent_cells_length_le (g : Game) (r c : Nat) :
    (g.adjacent_cells r c).length ≤ 9 := by
  unfold Game.adjacent_cells
  refine le_trans (List.length_filterMap_le _ _) ?_
  simp

theorem mined_neighbors_lt_16 (g : Game) (r c : Nat) :
    ((g.adjacent_cells r c).filter (fun p => g.has_mine p.1 p.2)).length < 16 :=
  lt_of_le_of_lt (le_trans (List.length_filter_le _ _) (adjacent_cells_length_le g r c))
    (by omega)

/-! ### Preservation through the open-cell recursion -/

theorem flood_phase_preserve (P : Game → Prop)
    (opener : Game → Nat → Nat → Except GameError Game)
    (hop : ∀ g r c g2, P g → opener g r c = .ok g2 → P g2)
    {g : Game} {row col : Nat} {g2 : Game}
    (hg : P g) (h : flood_phase opener g row col = .ok g2) : P g2 := by
  unfold flood_phase at h
  by_cases hz : g.num_adj_mines row col = 0
  · rw [if_pos hz] at h
    exact except_foldl_preserve P (fun gg (p : Nat × Nat) => opener gg p.1 p.2)
      (fun ga (p : Nat × Nat) gb => hop ga p.1 p.2 gb) _ g g2 hg h
  · rw [if_neg hz] at h
    cases h
    exact hg

/-- Structural preservation through the `open_cell` recursion: a
predicate closed under the three primitive state changes of `open_cell`
(opening one closed unflagged unmarked cell, the first-click relocation,
setting `game_over_`) holds for the result of every successful call. -/
theorem open_cell_fuel_preserve (P : Game → Prop)
    (hopen : ∀ g r c, P g → g.is_open r c = false → g.has_flag r c = false →
        g.has_mark r c = false → P (open_mark g r c))
    (hreloc : ∀ g r c a b, P g → g.has_mine r c = true → g.first_open_cell = .ok (a, b) →
        P (reloc g r c a b))
    (hlose : ∀ g, P g → P { g with game_over := true }) :
    ∀ fuel g r c g2, P g → open_cell_fuel fuel g r c = .ok g2 → P g2 := by
  intro fuel
  induction fuel with
  | zero =>
    intro g r c g2 _ h
    simp [open_cell_fuel] at h
  | succ fuel ih =>
    intro g r c g2 hg h
    rw [open_cell_fuel] at h
    by_cases hguard : g.is_open r c = true ∨ g.has_flag r c = true ∨ g.has_mark r c = true
    · rw [if_pos hguard] at h
      cases h
      exact hg
    · rw [if_neg hguard] at h
      have h1f : g.is_open r c = false := by
        cases hb : g.is_open r c
        · rfl
        · exact absurd (Or.inl hb) hguard
      have h2f : g.has_flag r c = false := by
        cases hb : g.has_flag r c
        · rfl
        · exact absurd (Or.inr (Or.inl hb)) hguard
      have h3f : g.has_mark r c = false := by
        cases hb : g.has_mark r c
        · rfl
        · exact absurd (Or.inr (Or.inr hb)) hguard
      have hPg1 : P (open_mark g r c) := hopen g r c hg h1f h2f h3f
      by_cases hmine : (open_mark g r c).has_mine r c = true
      · rw [if_pos hmine] at h
        by_cases hfirst : (open_mark g r c).open_cells = 1
        · rw [if_pos hfirst] at h
          cases hfo : (open_mark g r c).first_open_cell with
          | error e =>
            rw [hfo] at h
            have h2 : (Except.error e : Except GameError Game) = .ok g2 := h
            simp at h2
          | ok ab =>
            obtain ⟨a, b⟩ := ab
            rw [hfo] at h
            have h2 : flood_phase (open_cell_fuel fuel) (reloc (open_mark g r c) r c a b) r c
                = .ok g2 := h
            exact flood_phase_preserve P _ (fun ga ra ca gb => ih ga ra ca gb) (hreloc _ r c a b hPg1 hmine hfo) h2
        · rw [if_neg hfirst] at h
          cases h
          exact hlose _ hPg1
      · rw [if_neg hmine] at h
        exact flood_phase_preserve P _ (fun ga ra ca gb => ih ga ra ca gb) hPg1 h

/-! ### Pointwise observer preservation -/

theorem observer_updCell_bit {g : Game} (hwf : WF g) (r c : Nat) (f : Nat → Nat) (k : Nat)
    (hf : ∀ v, (f v).testBit k = v.testBit k) (i j : Nat) :
    (cellD (updCell g r c f).board i j).testBit k = (cellD g.board i j).testBit k := by
  by_cases hb : r < g.rows ∧ c < g.cols
  · rw [cellD_updCell hwf hb.1 hb.2]
    by_cases h : i = r ∧ j = c
    · rw [if_pos h]
      obtain ⟨hi, hj⟩ := h
      subst hi; subst hj
      exact hf _
    · rw [if_neg h]
  · rw [updCell_board_oob hwf hb]

theorem observer_updCell_nib {g : Game} (hwf : WF g) (r c : Nat) (f : Nat → Nat)
    (hf : ∀ v, f v &&& 15 = v &&& 15) (i j : Nat) :
    cellD (updCell g r c f).board i j &&& 15 = cellD g.board i j &&& 15 := by
  by_cases hb : r < g.rows ∧ c < g.cols
  · rw [cellD_updCell hwf hb.1 hb.2]
    by_cases h : i = r ∧ j = c
    · rw [if_pos h]
      obtain ⟨hi, hj⟩ := h
      subst hi; subst hj
      exact hf _
    · rw [if_neg h]
  · rw [updCell_board_oob hwf hb]

theorem cellD_replicate (rows cols i j : Nat) :
    cellD (List.replicate rows (List.replicate cols (0 : Nat))) i j = 0 := by
  unfold cellD
  have houter : (List.replicate rows (List.replicate cols (0 : Nat))).getD i []
        = List.replicate cols 0 ∨
      (List.replicate rows (List.replicate cols (0 : Nat))).getD i [] = [] := by
    rw [List.getD_eq_getElem?_getD, List.getElem?_replicate]
    by_cases hi : i < rows
    · rw [if_pos hi]; exact Or.inl rfl
    · rw [if_neg hi]; exact Or.inr rfl
  rcases houter with h | h <;> rw [h]
  · rw [List.getD_eq_getElem?_getD, List.getElem?_replicate]
    by_cases hj : j < cols
    · rw [if_pos hj]; rfl
    · rw [if_neg hj]; rfl
  · rw [List.getD_nil]

theorem WF_set_adj {g : Game} (h : WF g) (r c : Nat) : WF (g.set_adj_mines_count r c) :=
  WF_updCell h r c _

theorem recompute_preserve (P : Game → Prop)
    (hset : ∀ g r c, P g → P (g.set_adj_mines_count r c)) {g : Game} (hg : P g) :
    P g.recompute_adj := by
  unfold Game.recompute_adj
  exact foldl_preserve_mem P _ _ _
    (fun g2 i _ hg2 => foldl_preserve_mem P _ _ _ (fun g3 j _ hg3 => hset g3 i j hg3) hg2) hg

theorem WF_recompute {g : Game} (h : WF g) : WF g.recompute_adj :=
  recompute_preserve WF (fun _ r c h2 => WF_set_adj h2 r c) h

/-- The freshly constructed game: well-formed board with every opened,
flag and mark bit clear. -/
theorem mkGame_base (rows cols mines : Nat) (perm : List Nat) :
    WF (mkGame rows cols mines perm) ∧
    ∀ i j, (mkGame rows cols mines perm).is_open i j = false ∧
      (mkGame rows cols mines perm).has_flag i j = false ∧
      (mkGame rows cols mines perm).has_mark i j = false := by
  have hQtoggle : ∀ (g : Game) (r c : Nat),
      (WF g ∧ ∀ i j, g.is_open i j = false ∧ g.has_flag i j = false ∧ g.has_mark i j = false) →
      WF (g.toggle_mine r c) ∧ ∀ i j, (g.toggle_mine r c).is_open i j = false ∧
        (g.toggle_mine r c).has_flag i j = false ∧ (g.toggle_mine r c).has_mark i j = false := by
    intro g r c ⟨hwf, hbits⟩
    refine ⟨WF_updCell hwf r c _, ?_⟩
    intro i j
    refine ⟨?_, ?_, ?_⟩
    · show (cellD (updCell g r c mine_toggle_byte).board i j).testBit 6 = false
      rw [observer_updCell_bit hwf r c _ 6 mine_toggle_bit6 i j]
      exact (hbits i j).1
    · show (cellD (updCell g r c mine_toggle_byte).board i j).testBit 5 = false
      rw [observer_updCell_bit hwf r c _ 5 mine_toggle_bit5 i j]
      exact (hbits i j).2.1
    · show (cellD (updCell g r c mine_toggle_byte).board i j).testBit 4 = false
      rw [observer_updCell_bit hwf r c _ 4 mine_toggle_bit4 i j]
      exact (hbits i j).2.2
  have hQset : ∀ (g : Game) (r c : Nat),
      (WF g ∧ ∀ i j, g.is_open i j = false ∧ g.has_flag i j = false ∧ g.has_mark i j = false) →
      WF (g.set_adj_mines_count r c) ∧ ∀ i j, (g.set_adj_mines_count r c).is_open i j = false ∧
        (g.set_adj_mines_count r c).has_flag i j = false ∧
        (g.set_adj_mines_count r c).has_mark i j = false := by
    intro g r c ⟨hwf, hbits⟩
    have hn := mined_neighbors_lt_16 g r c
    refine ⟨WF_set_adj hwf r c, ?_⟩
    intro i j
    refine ⟨?_, ?_, ?_⟩
    · show (cellD (updCell g r c (nib_byte _)).board i j).testBit 6 = false
      rw [observer_updCell_bit hwf r c _ 6 (fun v => nib_byte_bit6 _ v hn) i j]
      exact (hbits i j).1
    · show (cellD (updCell g r c (nib_byte _)).board i j).testBit 5 = false
      rw [observer_updCell_bit hwf r c _ 5 (fun v => nib_byte_bit5 _ v hn) i j]
      exact (hbits i j).2.1
    · show (cellD (updCell g r c (nib_byte _)).board i j).testBit 4 = false
      rw [observer_updCell_bit hwf r c _ 4 (fun v => nib_byte_bit4 _ v hn) i j]
      exact (hbits i j).2.2
  have hQ0 : WF (Game.mk rows cols mines (List.replicate rows (List.replicate cols 0))
        false false 0 0) ∧
      ∀ i j, (Game.mk rows cols mines (List.replicate rows (List.replicate cols 0))
          false false 0 0).is_open i j = false ∧
        (Game.mk rows cols mines (List.replicate rows (List.replicate cols 0))
          false false 0 0).has_flag i j = false ∧
        (Game.mk rows cols mines (List.replicate rows (List.replicate cols 0))
          false false 0 0).has_mark i j = false := by
    constructor
    · constructor
      · exact List.length_replicate _ _
      · intro row hrow
        rw [List.eq_of_mem_replicate hrow]
        exact List.length_replicate _ _
    · intro i j
      refine ⟨?_, ?_, ?_⟩ <;>
        · show (cellD (List.replicate rows (List.replicate cols 0)) i j).testBit _ = false
          rw [cellD_replicate]
          exact Nat.zero_testBit _
  unfold mkGame
  exact recompute_preserve
    (fun g => WF g ∧ ∀ i j, g.is_open i j = false ∧ g.has_flag i j = false ∧
      g.has_mark i j = false)
    (fun g2 r c hg2 => hQset g2 r c hg2)
    (foldl_preserve_mem
      (fun g => WF g ∧ ∀ i j, g.is_open i j = false ∧ g.has_flag i j = false ∧
        g.has_mark i j = false)
      _ _ _ (fun g2 idx _ hg2 => hQtoggle g2 _ _ hg2) hQ0)

/-! ### The exclusion invariant (claim C4) -/

theorem excl_inv_updCell {g : Game} (hwf : WF g) (r c : Nat) {f : Nat → Nat}
    (h4 : ∀ v, (f v).testBit 4 = v.testBit 4)
    (h5 : ∀ v, (f v).testBit 5 = v.testBit 5)
    (h6 : ∀ v, (f v).testBit 6 = v.testBit 6)
    (hinv : excl_inv g) : excl_inv (updCell g r c f) := by
  intro i j
  have e4 := observer_updCell_bit hwf r c f 4 h4 i j
  have e5 := observer_updCell_bit hwf r c f 5 h5 i j
  have e6 := observer_updCell_bit hwf r c f 6 h6 i j
  show ¬((cellD _ i j).testBit 6 = true ∧ (cellD _ i j).testBit 5 = true) ∧
    ¬((cellD _ i j).testBit 5 = true ∧ (cellD _ i j).testBit 4 = true)
  rw [e4, e5, e6]
  exact hinv i j

theorem excl_inv_flag_cell {g : Game} (hwf : WF g) (r c : Nat) (hinv : excl_inv g) :
    excl_inv (g.flag_cell r c) := by
  unfold Game.flag_cell
  by_cases hopen : g.is_open r c = true
  · rw [if_pos hopen]
    exact hinv
  · rw [if_neg hopen]
    have hinv2 : excl_inv (updCell g r c flag_toggle_byte) := by
      intro i j
      by_cases hb : r < g.rows ∧ c < g.cols
      · by_cases hij : i = r ∧ j = c
        · obtain ⟨hi, hj⟩ := hij
          subst hi; subst hj
          show ¬((cellD _ i j).testBit 6 = true ∧ (cellD _ i j).testBit 5 = true) ∧
            ¬((cellD _ i j).testBit 5 = true ∧ (cellD _ i j).testBit 4 = true)
          rw [cellD_updCell hwf hb.1 hb.2, if_pos ⟨rfl, rfl⟩, flag_toggle_bit4,
            flag_toggle_bit5, flag_toggle_bit6]
          constructor
          · rintro ⟨h6, _⟩
            exact hopen (by unfold Game.is_open at hopen ⊢; exact h6)
          · rintro ⟨_, h4⟩
            cases h4
        · show ¬((cellD _ i j).testBit 6 = true ∧ (cellD _ i j).testBit 5 = true) ∧
            ¬((cellD _ i j).testBit 5 = true ∧ (cellD _ i j).testBit 4 = true)
          rw [cellD_updCell hwf hb.1 hb.2, if_neg hij]
          exact hinv i j
      · show ¬((cellD _ i j).testBit 6 = true ∧ (cellD _ i j).testBit 5 = true) ∧
          ¬((cellD _ i j).testBit 5 = true ∧ (cellD _ i j).testBit 4 = true)
        rw [updCell_board_oob hwf hb]
        exact hinv i j
    by_cases ht : (cellD (updCell g r c flag_toggle_byte).board r c).testBit 5 = true
    · rw [if_pos ht]
      exact hinv2
    · rw [if_neg ht]
      exact hinv2

theorem excl_inv_mark_cell {g : Game} (hwf : WF g) (r c : Nat) (hinv : excl_inv g) :
    excl_inv (g.mark_cell r c) := by
  unfold Game.mark_cell
  intro i j
  by_cases hb : r < g.rows ∧ c < g.cols
  · by_cases hij : i = r ∧ j = c
    · obtain ⟨hi, hj⟩ := hij
      subst hi; subst hj
      show ¬((cellD _ i j).testBit 6 = true ∧ (cellD _ i j).testBit 5 = true) ∧
        ¬((cellD _ i j).testBit 5 = true ∧ (cellD _ i j).testBit 4 = true)
      rw [cellD_updCell hwf hb.1 hb.2, if_pos ⟨rfl, rfl⟩, mark_toggle_bit4,
        mark_toggle_bit5, mark_toggle_bit6]
      constructor
      · rintro ⟨_, h5⟩
        cases h5
      · rintro ⟨h5, _⟩
        cases h5
    · show ¬((cellD _ i j).testBit 6 = true ∧ (cellD _ i j).testBit 5 = true) ∧
        ¬((cellD _ i j).testBit 5 = true ∧ (cellD _ i j).testBit 4 = true)
      rw [cellD_updCell hwf hb.1 hb.2, if_neg hij]
      exact hinv i j
  · show ¬((cellD _ i j).testBit 6 = true ∧ (cellD _ i j).testBit 5 = true) ∧
      ¬((cellD _ i j).testBit 5 = true ∧ (cellD _ i j).testBit 4 = true)
    rw [updCell_board_oob hwf hb]
    exact hinv i j

theorem check_win_preserve (P : Game → Prop)
    (hflag : ∀ g r c, P g → P (g.flag_cell r c))
    (hset : ∀ g : Game, P g → P { g with won := true, game_over := true })
    (g : Game) (r c : Nat) (hg : P g) : P (g.check_win r c) := by
  unfold Game.check_win
  by_cases hcond : g.open_cells + g.mines = g.rows * g.cols ∧ ¬g.has_mine r c = true
  · rw [if_pos hcond]
    refine foldl_preserve_mem P _ _ _ ?_ (hset g hg)
    intro g2 i _ hg2
    refine foldl_preserve_mem P _ _ _ ?_ hg2
    intro g3 j _ hg3
    unfold autoflag_cell
    by_cases hc : g3.has_mine i j = true ∧ ¬g3.has_flag i j = true
    · rw [if_pos hc]
      exact hflag g3 i j hg3
    · rw [if_neg hc]
      exact hg3
  · rw [if_neg hcond]
    exact hg

/-- Preservation through `chord_cell`, given preservation through the
open recursion. -/
theorem chord_preserve (P : Game → Prop)
    (hocf : ∀ fuel g r c g2, P g → open_cell_fuel fuel g r c = .ok g2 → P g2) :
    ∀ g r c g2, P g → g.chord_cell r c = .ok g2 → P g2 := by
  intro g r c g2 hg h
  have h3 : (if ¬g.is_open r c = true then (Except.ok g : Except GameError Game)
      else if ((g.adjacent_cells r c).filter (fun p => g.has_flag p.1 p.2)).length
          ≠ g.num_adj_mines r c then .ok g
      else (g.adjacent_cells r c).foldl
        (fun (acc : Except GameError Game) p =>
          acc.bind (fun gg => open_cell_fuel (g.rows * g.cols + 1) gg p.1 p.2)) (.ok g))
      = .ok g2 := h
  by_cases h1 : ¬g.is_open r c = true
  · rw [if_pos h1] at h3
    cases h3
    exact hg
  · rw [if_neg h1] at h3
    by_cases h2 : ((g.adjacent_cells r c).filter (fun p => g.has_flag p.1 p.2)).length
        ≠ g.num_adj_mines r c
    · rw [if_pos h2] at h3
      cases h3
      exact hg
    · rw [if_neg h2] at h3
      exact except_foldl_preserve P _
        (fun ga (p : Nat × Nat) gb hga hstep => hocf _ ga p.1 p.2 gb hga hstep)
        _ g g2 hg h3

/-- Preservation of a predicate by every command of the interface, given
closure under the primitive state changes. -/
theorem step_preserve (P : Game → Prop)
    (hopen : ∀ g r c, P g → g.is_open r c = false → g.has_flag r c = false →
        g.has_mark r c = false → P (open_mark g r c))
    (hreloc : ∀ g r c a b, P g → g.has_mine r c = true → g.first_open_cell = .ok (a, b) →
        P (reloc g r c a b))
    (hlose : ∀ g : Game, P g → P { g with game_over := true })
    (hflag : ∀ g r c, P g → P (g.flag_cell r c))
    (hmark : ∀ g r c, P g → P (g.mark_cell r c))
    (hset : ∀ g : Game, P g → P { g with won := true, game_over := true }) :
    ∀ g cmd g2, P g → step g cmd = .ok g2 → P g2 := by
  have hocf := open_cell_fuel_preserve P hopen hreloc hlose
  intro g cmd g2 hg h
  cases cmd with
  | opn r c =>
    exact hocf _ g r c g2 hg h
  | chord r c =>
    exact chord_preserve P hocf g r c g2 hg h
  | flag r c =>
    unfold step at h
    cases h
    exact hflag g r c hg
  | mark r c =>
    unfold step at h
    cases h
    exact hmark g r c hg
  | checkwin r c =>
    unfold step at h
    cases h
    exact check_win_preserve P hflag hset g r c hg

theorem WF_flag_cell {g : Game} (h : WF g) (r c : Nat) : WF (g.flag_cell r c) := by
  unfold Game.flag_cell
  by_cases ho : g.is_open r c = true
  · rw [if_pos ho]
    exact h
  · rw [if_neg ho]
    by_cases ht : (cellD (updCell g r c flag_toggle_byte).board r c).testBit 5 = true
    · rw [if_pos ht]
      exact WF_updCell h r c _
    · rw [if_neg ht]
      exact WF_updCell h r c _

theorem excl_inv_open_mark {g : Game} (hwf : WF g) (r c : Nat)
    (h2f : g.has_flag r c = false) (h3f : g.has_mark r c = false)
    (hinv : excl_inv g) : excl_inv (open_mark g r c) := by
  intro i j
  by_cases hb : r < g.rows ∧ c < g.cols
  · by_cases hij : i = r ∧ j = c
    · obtain ⟨hi, hj⟩ := hij
      subst hi; subst hj
      have hf5 : (cellD g.board i j).testBit 5 = false := h2f
      have hm4 : (cellD g.board i j).testBit 4 = false := h3f
      show ¬((cellD (updCell g i j open_byte).board i j).testBit 6 = true ∧
          (cellD (updCell g i j open_byte).board i j).testBit 5 = true) ∧
        ¬((cellD (updCell g i j open_byte).board i j).testBit 5 = true ∧
          (cellD (updCell g i j open_byte).board i j).testBit 4 = true)
      rw [cellD_updCell hwf hb.1 hb.2, if_pos ⟨rfl, rfl⟩, open_byte_bit5, open_byte_bit4,
        hf5, hm4]
      simp
    · show ¬((cellD (updCell g r c open_byte).board i j).testBit 6 = true ∧
          (cellD (updCell g r c open_byte).board i j).testBit 5 = true) ∧
        ¬((cellD (updCell g r c open_byte).board i j).testBit 5 = true ∧
          (cellD (updCell g r c open_byte).board i j).testBit 4 = true)
      rw [cellD_updCell hwf hb.1 hb.2, if_neg hij]
      exact hinv i j
  · show ¬((cellD (updCell g r c open_byte).board i j).testBit 6 = true ∧
        (cellD (updCell g r c open_byte).board i j).testBit 5 = true) ∧
      ¬((cellD (updCell g r c open_byte).board i j).testBit 5 = true ∧
        (cellD (updCell g r c open_byte).board i j).testBit 4 = true)
    rw [updCell_board_oob hwf hb]
    exact hinv i j

/-- Closure of `WF ∧ excl_inv` under every command. -/
theorem excl_inv_step : ∀ g cmd g2, (WF g ∧ excl_inv g) → step g cmd = .ok g2 →
    WF g2 ∧ excl_inv g2 := by
  refine step_preserve _ ?_ ?_ ?_ ?_ ?_ ?_
  · rintro g r c ⟨hwf, hinv⟩ _ h2f h3f
    exact ⟨WF_updCell hwf r c _, excl_inv_open_mark hwf r c h2f h3f hinv⟩
  · rintro g r c a b ⟨hwf, hinv⟩ _ _
    have h1 : WF (g.toggle_mine a b) := WF_updCell hwf _ _ _
    have hinv1 : excl_inv (g.toggle_mine a b) :=
      excl_inv_updCell hwf a b mine_toggle_bit4 mine_toggle_bit5 mine_toggle_bit6 hinv
    have h2 : WF ((g.toggle_mine a b).toggle_mine r c) := WF_updCell h1 _ _ _
    have hinv2 : excl_inv ((g.toggle_mine a b).toggle_mine r c) :=
      excl_inv_updCell h1 r c mine_toggle_bit4 mine_toggle_bit5 mine_toggle_bit6 hinv1
    exact recompute_preserve (fun x => WF x ∧ excl_inv x)
      (fun g3 rr cc hg3 =>
        ⟨WF_set_adj hg3.1 rr cc,
         excl_inv_updCell hg3.1 rr cc
           (fun v => nib_byte_bit4 _ v (mined_neighbors_lt_16 g3 rr cc))
           (fun v => nib_byte_bit5 _ v (mined_neighbors_lt_16 g3 rr cc))
           (fun v => nib_byte_bit6 _ v (mined_neighbors_lt_16 g3 rr cc)) hg3.2⟩)
      ⟨h2, hinv2⟩
  · exact fun g hg => hg
  · rintro g r c ⟨hwf, hinv⟩
    exact ⟨WF_flag_cell hwf r c, excl_inv_flag_cell hwf r c hinv⟩
  · rintro g r c ⟨hwf, hinv⟩
    exact ⟨WF_updCell hwf r c _, excl_inv_mark_cell hwf r c hinv⟩
  · exact fun g hg => hg

/-- Claim C4 (amended): in every reachable state and for every cell,
`is_open` and `has_flag` are never simultaneously true, and `has_flag`
and `has_mark` are never simultaneously true.  (The third pair of the
original claim, `is_open ∧ has_mark`, fails: `mark_cell` marks open
cells — see the counterexample.) -/
theorem C4_exclusion_invariant (rows cols mines : Nat) (perm : List Nat) (g : Game)
    (h : Reachable (mkGame rows cols mines perm) g) :
    ∀ i j : Nat, ¬(g.is_open i j = true ∧ g.has_flag i j = true) ∧
      ¬(g.has_flag i j = true ∧ g.has_mark i j = true) := by
  suffices hs : WF g ∧ excl_inv g by exact hs.2
  induction h with
  | init =>
    obtain ⟨hwf, hbits⟩ := mkGame_base rows cols mines perm
    refine ⟨hwf, ?_⟩
    intro i j
    constructor
    · rintro ⟨_, hf⟩
      rw [(hbits i j).2.1] at hf
      cases hf
    · rintro ⟨hf, _⟩
      rw [(hbits i j).2.1] at hf
      cases hf
  | step cmd hre hbounds hstep ih =>
    exact excl_inv_step _ cmd _ ih hstep

/-- Witness for `C4_exclusion_invariant` at the freshly constructed 1x2
board. -/
theorem C4_exclusion_witness :
    Reachable (mkGame 1 2 1 [0, 1]) (mkGame 1 2 1 [0, 1]) ∧
    ∀ i j : Nat, ¬((mkGame 1 2 1 [0, 1]).is_open i j = true ∧
        (mkGame 1 2 1 [0, 1]).has_flag i j = true) ∧
      ¬((mkGame 1 2 1 [0, 1]).has_flag i j = true ∧
        (mkGame 1 2 1 [0, 1]).has_mark i j = true) :=
  ⟨Reachable.init, C4_exclusion_invariant 1 2 1 [0, 1] _ Reachable.init⟩

/-! ### The flag-counter invariant (claim C3) -/

theorem flag_count_eq_of_bits {g g2 : Game} (hr : g2.rows = g.rows) (hc : g2.cols = g.cols)
    (h : ∀ i j, i < g.rows → j < g.cols → g2.has_flag i j = g.has_flag i j) :
    flag_count g2 = flag_count g := by
  unfold flag_count
  rw [hr, hc]
  exact countP_eq_of_agree (fun p hp => by
    obtain ⟨h1, h2⟩ := mem_allCells.1 hp
    exact h p.1 p.2 h1 h2)

theorem mkGame_fields (rows cols mines : Nat) (perm : List Nat) :
    (mkGame rows cols mines perm).rows = rows ∧ (mkGame rows cols mines perm).cols = cols ∧
    (mkGame rows cols mines perm).mines = mines ∧
    (mkGame rows cols mines perm).cells_flagged = 0 ∧
    (mkGame rows cols mines perm).open_cells = 0 ∧
    (mkGame rows cols mines perm).game_over = false ∧
    (mkGame rows cols mines perm).won = false := by
  unfold mkGame
  exact recompute_preserve
    (fun g => g.rows = rows ∧ g.cols = cols ∧ g.mines = mines ∧ g.cells_flagged = 0 ∧
      g.open_cells = 0 ∧ g.game_over = false ∧ g.won = false)
    (fun g2 r c hg2 => hg2)
    (foldl_preserve_mem
      (fun g => g.rows = rows ∧ g.cols = cols ∧ g.mines = mines ∧ g.cells_flagged = 0 ∧
        g.open_cells = 0 ∧ g.game_over = false ∧ g.won = false)
      _ _ _ (fun g2 idx _ hg2 => hg2) ⟨rfl, rfl, rfl, rfl, rfl, rfl, rfl⟩)

/-- `flags() = number of flagged cells` is untouched by any single-cell
update that preserves bit 5 and the counter field. -/
theorem P3_updCell_bit5 {g : Game} (hP : WF g ∧ g.flags = (flag_count g : Int)) (r c : Nat)
    {f : Nat → Nat} (h5 : ∀ v, (f v).testBit 5 = v.testBit 5) :
    WF (updCell g r c f) ∧ (updCell g r c f).flags = (flag_count (updCell g r c f) : Int) := by
  obtain ⟨hwf, hq⟩ := hP
  refine ⟨WF_updCell hwf r c _, ?_⟩
  have he : flag_count (updCell g r c f) = flag_count g :=
    flag_count_eq_of_bits rfl rfl (fun i j _ _ => observer_updCell_bit hwf r c f 5 h5 i j)
  show g.cells_flagged = (flag_count (updCell g r c f) : Int)
  rw [he]
  exact hq

theorem flag_cell_rows (g : Game) (r c : Nat) : (g.flag_cell r c).rows = g.rows := by
  unfold Game.flag_cell
  by_cases ho : g.is_open r c = true
  · rw [if_pos ho]
  · rw [if_neg ho]
    by_cases ht : (cellD (updCell g r c flag_toggle_byte).board r c).testBit 5 = true
    · rw [if_pos ht]; rfl
    · rw [if_neg ht]; rfl

theorem flag_cell_cols (g : Game) (r c : Nat) : (g.flag_cell r c).cols = g.cols := by
  unfold Game.flag_cell
  by_cases ho : g.is_open r c = true
  · rw [if_pos ho]
  · rw [if_neg ho]
    by_cases ht : (cellD (updCell g r c flag_toggle_byte).board r c).testBit 5 = true
    · rw [if_pos ht]; rfl
    · rw [if_neg ht]; rfl

theorem flag_cell_P3 {g : Game} (hwf : WF g) {r c : Nat} (hr : r < g.rows) (hc : c < g.cols)
    (hq : g.flags = (flag_count g : Int)) :
    WF (g.flag_cell r c) ∧ (g.flag_cell r c).flags = (flag_count (g.flag_cell r c) : Int) := by
  refine ⟨WF_flag_cell hwf r c, ?_⟩
  unfold Game.flag_cell
  by_cases ho : g.is_open r c = true
  · rw [if_pos ho]
    exact hq
  · rw [if_neg ho]
    have hcell : cellD (updCell g r c flag_toggle_byte).board r c
        = flag_toggle_byte (cellD g.board r c) := by
      rw [cellD_updCell hwf hr hc, if_pos ⟨rfl, rfl⟩]
    have hagree : ∀ a ∈ allCells g.rows g.cols, a ≠ (r, c) →
        g.has_flag a.1 a.2 = (updCell g r c flag_toggle_byte).has_flag a.1 a.2 := by
      rintro ⟨x, y⟩ _ hne
      show _ = (cellD (updCell g r c flag_toggle_byte).board x y).testBit 5
      rw [cellD_updCell hwf hr hc,
        if_neg (by rintro ⟨h1, h2⟩; subst h1; subst h2; exact hne rfl)]
      rfl
    have hmem : (r, c) ∈ allCells g.rows g.cols := mem_allCells.2 ⟨hr, hc⟩
    by_cases hf : g.has_flag r c = true
    · have ht : (cellD (updCell g r c flag_toggle_byte).board r c).testBit 5 = false := by
        rw [hcell, flag_toggle_bit5]
        have h2 : (cellD g.board r c).testBit 5 = true := hf
        rw [h2]
        rfl
      rw [if_neg (by rw [ht]; simp)]
      have hcount : flag_count g = flag_count (updCell g r c flag_toggle_byte) + 1 := by
        unfold flag_count
        exact countP_flip_true (nodup_allCells _ _) hmem
          (fun a ha hne => hagree a ha hne) ht hf
      show g.cells_flagged - 1 = (flag_count (updCell g r c flag_toggle_byte) : Int)
      have hq2 : g.cells_flagged = (flag_count g : Int) := hq
      have hcast : (flag_count g : Int) = (flag_count (updCell g r c flag_toggle_byte) : Int) + 1 := by
        exact_mod_cast hcount
      omega
    · have hff : g.has_flag r c = false := by
        cases hb2 : g.has_flag r c
        · rfl
        · exact absurd hb2 hf
      have ht : (cellD (updCell g r c flag_toggle_byte).board r c).testBit 5 = true := by
        rw [hcell, flag_toggle_bit5]
        have h2 : (cellD g.board r c).testBit 5 = false := hff
        rw [h2]
        rfl
      rw [if_pos ht]
      have hcount : flag_count (updCell g r c flag_toggle_byte) = flag_count g + 1 := by
        unfold flag_count
        exact countP_flip_true (nodup_allCells _ _) hmem
          (fun a ha hne => (hagree a ha hne).symm) hff ht
      show g.cells_flagged + 1 = (flag_count (updCell g r c flag_toggle_byte) : Int)
      have hq2 : g.cells_flagged = (flag_count g : Int) := hq
      have hcast : (flag_count (updCell g r c flag_toggle_byte) : Int)
          = (flag_count g : Int) + 1 := by
        exact_mod_cast hcount
      omega

theorem mark_cell_P3 {g : Game} (hwf : WF g) {r c : Nat} (hr : r < g.rows) (hc : c < g.cols)
    (hnf : g.has_flag r c = false) (hq : g.flags = (flag_count g : Int)) :
    WF (g.mark_cell r c) ∧ (g.mark_cell r c).flags = (flag_count (g.mark_cell r c) : Int) := by
  refine ⟨WF_updCell hwf r c _, ?_⟩
  have he : flag_count (g.mark_cell r c) = flag_count g := by
    refine flag_count_eq_of_bits ?_ ?_ ?_
    · rfl
    · rfl
    intro i j _ _
    show (cellD (updCell g r c mark_toggle_byte).board i j).testBit 5 = _
    rw [cellD_updCell hwf hr hc]
    by_cases hij : i = r ∧ j = c
    · rw [if_pos hij, mark_toggle_bit5]
      obtain ⟨hi, hj⟩ := hij
      subst hi; subst hj
      exact hnf.symm
    · rw [if_neg hij]
      rfl
  show g.cells_flagged = (flag_count (g.mark_cell r c) : Int)
  rw [he]
  exact hq

theorem check_win_P3 {g : Game} (hwf : WF g) (r c : Nat)
    (hq : g.flags = (flag_count g : Int)) :
    WF (g.check_win r c) ∧ (g.check_win r c).flags = (flag_count (g.check_win r c) : Int) := by
  unfold Game.check_win
  by_cases hcond : g.open_cells + g.mines = g.rows * g.cols ∧ ¬g.has_mine r c = true
  · rw [if_pos hcond]
    have hbase : (WF ({ g with won := true, game_over := true } : Game) ∧
        ({ g with won := true, game_over := true } : Game).flags
          = (flag_count { g with won := true, game_over := true } : Int)) ∧
        ({ g with won := true, game_over := true } : Game).rows = g.rows ∧
        ({ g with won := true, game_over := true } : Game).cols = g.cols :=
      ⟨⟨hwf, hq⟩, rfl, rfl⟩
    refine (foldl_preserve_mem
      (fun x => (WF x ∧ x.flags = (flag_count x : Int)) ∧ x.rows = g.rows ∧ x.cols = g.cols)
      _ (List.range g.rows) _ ?_ hbase).1
    intro g2 i hi hg2
    refine foldl_preserve_mem
      (fun x => (WF x ∧ x.flags = (flag_count x : Int)) ∧ x.rows = g.rows ∧ x.cols = g.cols)
      _ (List.range g.cols) g2 ?_ hg2
    intro g3 j hj hg3
    unfold autoflag_cell
    by_cases hcflag : g3.has_mine i j = true ∧ ¬g3.has_flag i j = true
    · obtain ⟨⟨hwf3, hq3⟩, hrows3, hcols3⟩ := hg3
      rw [if_pos hcflag]
      refine ⟨flag_cell_P3 hwf3 ?_ ?_ hq3, ?_, ?_⟩
      · rw [hrows3]
        exact List.mem_range.1 hi
      · rw [hcols3]
        exact List.mem_range.1 hj
      · rw [flag_cell_rows, hrows3]
      · rw [flag_cell_cols, hcols3]
    · rw [if_neg hcflag]
      exact hg3
  · rw [if_neg hcond]
    exact ⟨hwf, hq⟩

/-- Claim C3 (amended): along any in-bounds command sequence that never
applies `mark_cell` to a flagged cell, `flags()` always equals the
number of flagged cells, and `flag_cell` on a closed cell moves the
counter by exactly +1 (raising) or -1 (lowering). -/
theorem C3_flag_counter_accurate (rows cols mines : Nat) (perm : List Nat) (g : Game)
    (h : ReachableNoMarkOnFlag (mkGame rows cols mines perm) g) :
    g.flags = (flag_count g : Int) ∧
    ∀ r c, r < g.rows → c < g.cols → g.is_open r c = false →
      (g.flag_cell r c).flags = g.flags + (if g.has_flag r c = true then -1 else 1) := by
  suffices hs : WF g ∧ g.flags = (flag_count g : Int) by
    obtain ⟨hwf, hq⟩ := hs
    refine ⟨hq, ?_⟩
    intro r c hr hc ho
    unfold Game.flag_cell
    rw [if_neg (by rw [ho]; simp)]
    have hcell : cellD (updCell g r c flag_toggle_byte).board r c
        = flag_toggle_byte (cellD g.board r c) := by
      rw [cellD_updCell hwf hr hc, if_pos ⟨rfl, rfl⟩]
    by_cases hf : g.has_flag r c = true
    · have ht : (cellD (updCell g r c flag_toggle_byte).board r c).testBit 5 = false := by
        rw [hcell, flag_toggle_bit5]
        have h2 : (cellD g.board r c).testBit 5 = true := hf
        rw [h2]
        rfl
      rw [if_neg (by rw [ht]; simp), if_pos hf]
      show g.cells_flagged - 1 = g.cells_flagged + (-1)
      omega
    · have hff : g.has_flag r c = false := by
        cases hb2 : g.has_flag r c
        · rfl
        · exact absurd hb2 hf
      have ht : (cellD (updCell g r c flag_toggle_byte).board r c).testBit 5 = true := by
        rw [hcell, flag_toggle_bit5]
        have h2 : (cellD g.board r c).testBit 5 = false := hff
        rw [h2]
        rfl
      rw [if_pos ht, if_neg hf]
      show g.cells_flagged + 1 = g.cells_flagged + 1
      rfl
  induction h with
  | init =>
    refine ⟨(mkGame_base rows cols mines perm).1, ?_⟩
    have hflags0 : (mkGame rows cols mines perm).cells_flagged = 0 :=
      (mkGame_fields rows cols mines perm).2.2.2.1
    have hcount0 : flag_count (mkGame rows cols mines perm) = 0 := by
      unfold flag_count
      rw [List.countP_eq_zero]
      intro p hp
      rw [((mkGame_base rows cols mines perm).2 p.1 p.2).2.1]
      simp
    show (mkGame rows cols mines perm).cells_flagged = _
    rw [hflags0, hcount0]
    rfl
  | step cmd hre hb hm hstep ih =>
    cases cmd with
    | opn r c =>
      exact open_cell_fuel_preserve (fun x => WF x ∧ x.flags = (flag_count x : Int))
        (fun ga ra ca hg _ _ _ => P3_updCell_bit5 hg ra ca open_byte_bit5)
        (fun ga ra ca a b hg _ _ =>
          recompute_preserve (fun x => WF x ∧ x.flags = (flag_count x : Int))
            (fun g3 rr cc hg3 => P3_updCell_bit5 hg3 rr cc
              (fun v => nib_byte_bit5 _ v (mined_neighbors_lt_16 g3 rr cc)))
            (P3_updCell_bit5 (P3_updCell_bit5 hg a b mine_toggle_bit5) ra ca
              mine_toggle_bit5))
        (fun ga hg => hg)
        _ _ _ _ _ ih hstep
    | chord r c =>
      exact chord_preserve (fun x => WF x ∧ x.flags = (flag_count x : Int))
        (open_cell_fuel_preserve _
          (fun ga ra ca hg _ _ _ => P3_updCell_bit5 hg ra ca open_byte_bit5)
          (fun ga ra ca a b hg _ _ =>
            recompute_preserve (fun x => WF x ∧ x.flags = (flag_count x : Int))
              (fun g3 rr cc hg3 => P3_updCell_bit5 hg3 rr cc
                (fun v => nib_byte_bit5 _ v (mined_neighbors_lt_16 g3 rr cc)))
              (P3_updCell_bit5 (P3_updCell_bit5 hg a b mine_toggle_bit5) ra ca
                mine_toggle_bit5))
          (fun ga hg => hg))
        _ r c _ ih hstep
    | flag r c =>
      unfold step at hstep
      cases hstep
      exact flag_cell_P3 ih.1 hb.1 hb.2 ih.2
    | mark r c =>
      unfold step at hstep
      cases hstep
      exact mark_cell_P3 ih.1 hb.1 hb.2 (hm r c rfl) ih.2
    | checkwin r c =>
      unfold step at hstep
      cases hstep
      exact check_win_P3 ih.1 r c ih.2

/-- Witness for `C3_flag_counter_accurate` at the freshly constructed
1x2 board. -/
theorem C3_flag_counter_witness :
    ReachableNoMarkOnFlag (mkGame 1 2 1 [0, 1]) (mkGame 1 2 1 [0, 1]) ∧
    (mkGame 1 2 1 [0, 1]).flags = (flag_count (mkGame 1 2 1 [0, 1]) : Int) :=
  ⟨ReachableNoMarkOnFlag.init,
    (C3_flag_counter_accurate 1 2 1 [0, 1] _ ReachableNoMarkOnFlag.init).1⟩

/-! ### The mine-count invariant (claim C8) -/

theorem mine_count_eq_of_bits {g g2 : Game} (hr : g2.rows = g.rows) (hc : g2.cols = g.cols)
    (h : ∀ i j, i < g.rows → j < g.cols → g2.has_mine i j = g.has_mine i j) :
    mine_count g2 = mine_count g := by
  unfold mine_count
  rw [hr, hc]
  exact countP_eq_of_agree (fun p hp => by
    obtain ⟨h1, h2⟩ := mem_allCells.1 hp
    exact h p.1 p.2 h1 h2)

theorem toggle_agree_off {g : Game} (hwf : WF g) {r c : Nat} (hr : r < g.rows)
    (hc : c < g.cols) :
    ∀ a ∈ allCells g.rows g.cols, a ≠ (r, c) →
      g.has_mine a.1 a.2 = (g.toggle_mine r c).has_mine a.1 a.2 := by
  rintro ⟨x, y⟩ _ hne
  show _ = (cellD (updCell g r c mine_toggle_byte).board x y).testBit 7
  rw [cellD_updCell hwf hr hc,
    if_neg (by rintro ⟨h1, h2⟩; subst h1; subst h2; exact hne rfl)]
  rfl

theorem toggle_cell_bit7 {g : Game} (hwf : WF g) {r c : Nat} (hr : r < g.rows)
    (hc : c < g.cols) :
    (g.toggle_mine r c).has_mine r c = !g.has_mine r c := by
  show (cellD (updCell g r c mine_toggle_byte).board r c).testBit 7 = _
  rw [cellD_updCell hwf hr hc, if_pos ⟨rfl, rfl⟩, mine_toggle_bit7]
  rfl

theorem mine_count_toggle_on {g : Game} (hwf : WF g) {r c : Nat} (hr : r < g.rows)
    (hc : c < g.cols) (hm : g.has_mine r c = false) :
    mine_count (g.toggle_mine r c) = mine_count g + 1 := by
  unfold mine_count
  refine countP_flip_true (nodup_allCells _ _) (mem_allCells.2 ⟨hr, hc⟩)
    (fun a ha hne => (toggle_agree_off hwf hr hc a ha hne).symm) hm ?_
  rw [toggle_cell_bit7 hwf hr hc, hm]
  rfl

theorem mine_count_toggle_off {g : Game} (hwf : WF g) {r c : Nat} (hr : r < g.rows)
    (hc : c < g.cols) (hm : g.has_mine r c = true) :
    mine_count g = mine_count (g.toggle_mine r c) + 1 := by
  unfold mine_count
  refine countP_flip_true (nodup_allCells _ _) (mem_allCells.2 ⟨hr, hc⟩)
    (fun a ha hne => toggle_agree_off hwf hr hc a ha hne) ?_ hm
  rw [toggle_cell_bit7 hwf hr hc, hm]
  rfl

theorem has_mine_bounds {g : Game} (hwf : WF g) {r c : Nat} (hm : g.has_mine r c = true) :
    r < g.rows ∧ c < g.cols := by
  by_contra hb
  unfold Game.has_mine at hm
  rw [cellD_eq_zero_oob hwf hb] at hm
  cases hm

/-- The mine-placement fold of the constructor: toggling a list of
distinct, in-bounds, still-mine-free cells raises the mine count by the
length of the list. -/
theorem toggle_fold_count (rows cols : Nat) :
    ∀ (l : List Nat) (g : Game), WF g → g.rows = rows → g.cols = cols →
      l.Nodup → (∀ x ∈ l, x < rows * cols) →
      (∀ x ∈ l, g.has_mine (x / cols) (x % cols) = false) →
      WF (l.foldl (fun gg idx => gg.toggle_mine (idx / cols) (idx % cols)) g) ∧
      (l.foldl (fun gg idx => gg.toggle_mine (idx / cols) (idx % cols)) g).rows = rows ∧
      (l.foldl (fun gg idx => gg.toggle_mine (idx / cols) (idx % cols)) g).cols = cols ∧
      mine_count (l.foldl (fun gg idx => gg.toggle_mine (idx / cols) (idx % cols)) g)
        = mine_count g + l.length
  | [], g, hwf, hrows, hcols, _, _, _ => ⟨hwf, hrows, hcols, rfl⟩
  | idx :: rest, g, hwf, hrows, hcols, hnd, hbnd, hfresh => by
    have hidx : idx < rows * cols := hbnd idx (List.mem_cons_self _ _)
    have hcols0 : 0 < cols := by
      rcases Nat.eq_zero_or_pos cols with h | h
      · subst h
        omega
      · exact h
    have hdr : idx / cols < rows := Nat.div_lt_of_lt_mul (by rw [Nat.mul_comm]; exact hidx)
    have hdc : idx % cols < cols := Nat.mod_lt _ hcols0
    have hr2 : idx / cols < g.rows := by rw [hrows]; exact hdr
    have hc2 : idx % cols < g.cols := by rw [hcols]; exact hdc
    rw [List.foldl_cons]
    have hg2wf : WF (g.toggle_mine (idx / cols) (idx % cols)) := WF_updCell hwf _ _ _
    have hrest : ∀ x ∈ rest, (g.toggle_mine (idx / cols) (idx % cols)).has_mine
        (x / cols) (x % cols) = false := by
      intro x hx
      have hne : (x / cols, x % cols) ≠ (idx / cols, idx % cols) := by
        intro he
        injection he with e1 e2
        have hxi : x = idx := by
          have hx2 := Nat.div_add_mod x cols
          have hidx2 := Nat.div_add_mod idx cols
          rw [e1, e2] at hx2
          omega
        subst hxi
        exact (List.nodup_cons.1 hnd).1 hx
      have hb1 : x / cols < g.rows := by
        rw [hrows]
        refine Nat.div_lt_of_lt_mul ?_
        rw [Nat.mul_comm]
        exact hbnd x (List.mem_cons_of_mem _ hx)
      have hb2 : x % cols < g.cols := by
        rw [hcols]
        exact Nat.mod_lt _ hcols0
      have hagree := toggle_agree_off hwf hr2 hc2 (x / cols, x % cols)
        (mem_allCells.2 ⟨hb1, hb2⟩) hne
      have hagree2 : g.has_mine (x / cols) (x % cols)
          = (g.toggle_mine (idx / cols) (idx % cols)).has_mine (x / cols) (x % cols) := hagree
      rw [← hagree2]
      exact hfresh x (List.mem_cons_of_mem _ hx)
    obtain ⟨hwf3, hrows3, hcols3, hcount3⟩ := toggle_fold_count rows cols rest
      (g.toggle_mine (idx / cols) (idx % cols)) hg2wf hrows hcols
      (List.nodup_cons.1 hnd).2 (fun x hx => hbnd x (List.mem_cons_of_mem _ hx)) hrest
    refine ⟨hwf3, hrows3, hcols3, ?_⟩
    rw [hcount3, mine_count_toggle_on hwf hr2 hc2
      (hfresh idx (List.mem_cons_self _ _))]
    simp [List.length_cons]
    omega

theorem flag_cell_bit7 {g : Game} (hwf : WF g) (r c i j : Nat) :
    (g.flag_cell r c).has_mine i j = g.has_mine i j := by
  unfold Game.flag_cell
  by_cases ho : g.is_open r c = true
  · rw [if_pos ho]
  · rw [if_neg ho]
    by_cases ht : (cellD (updCell g r c flag_toggle_byte).board r c).testBit 5 = true
    · rw [if_pos ht]
      show (cellD (updCell g r c flag_toggle_byte).board i j).testBit 7 = _
      exact observer_updCell_bit hwf r c _ 7 flag_toggle_bit7 i j
    · rw [if_neg ht]
      show (cellD (updCell g r c flag_toggle_byte).board i j).testBit 7 = _
      exact observer_updCell_bit hwf r c _ 7 flag_toggle_bit7 i j

/-- Closure of `WF ∧ fixed dimensions ∧ mine_count = M` under every
command: the only operation that touches mine bits is the first-click
relocation, and it toggles one mine off and one mine on. -/
theorem mine_count_step (R C M : Nat) :
    ∀ g cmd g2, (WF g ∧ g.rows = R ∧ g.cols = C ∧ mine_count g = M) → step g cmd = .ok g2 →
      WF g2 ∧ g2.rows = R ∧ g2.cols = C ∧ mine_count g2 = M := by
  refine step_preserve _ ?_ ?_ ?_ ?_ ?_ ?_
  · rintro g r c ⟨hwf, hr, hc, hm⟩ _ _ _
    refine ⟨WF_updCell hwf r c _, hr, hc, ?_⟩
    rw [← hm]
    exact mine_count_eq_of_bits rfl rfl
      (fun i j _ _ => observer_updCell_bit hwf r c _ 7 open_byte_bit7 i j)
  · rintro g r c a b ⟨hwf, hr, hc, hm⟩ hmine hfo
    obtain ⟨hcell, hnomine⟩ := first_open_cell_ok hfo
    obtain ⟨v, hv⟩ := Option.ne_none_iff_exists.1 hcell
    obtain ⟨hab1, hab2⟩ := getCell_bounds hwf hv.symm
    obtain ⟨hrc1, hrc2⟩ := has_mine_bounds hwf hmine
    have hwf1 : WF (g.toggle_mine a b) := WF_updCell hwf _ _ _
    have hwf2 : WF ((g.toggle_mine a b).toggle_mine r c) := WF_updCell hwf1 _ _ _
    have hne : (r, c) ≠ (a, b) := by
      intro he
      injection he with e1 e2
      subst e1; subst e2
      rw [hmine] at hnomine
      cases hnomine
    have hcount1 : mine_count (g.toggle_mine a b) = mine_count g + 1 :=
      mine_count_toggle_on hwf hab1 hab2 hnomine
    have hmine1 : (g.toggle_mine a b).has_mine r c = true := by
      rw [← toggle_agree_off hwf hab1 hab2 (r, c) (mem_allCells.2 ⟨hrc1, hrc2⟩) hne]
      exact hmine
    have hcount2 : mine_count (g.toggle_mine a b)
        = mine_count ((g.toggle_mine a b).toggle_mine r c) + 1 :=
      mine_count_toggle_off hwf1 (by exact hrc1) (by exact hrc2) hmine1
    have hfinal : mine_count ((g.toggle_mine a b).toggle_mine r c) = M := by omega
    refine recompute_preserve
      (fun x => WF x ∧ x.rows = R ∧ x.cols = C ∧ mine_count x = M)
      (fun g3 rr cc hg3 => ⟨WF_set_adj hg3.1 rr cc, hg3.2.1, hg3.2.2.1, by
        rw [← hg3.2.2.2]
        exact mine_count_eq_of_bits rfl rfl (fun i j _ _ =>
          observer_updCell_bit hg3.1 rr cc _ 7
            (fun v2 => nib_byte_bit7 _ v2 (mined_neighbors_lt_16 g3 rr cc)) i j)⟩)
      ⟨hwf2, hr, hc, hfinal⟩
  · exact fun g hg => hg
  · rintro g r c ⟨hwf, hr, hc, hm⟩
    refine ⟨WF_flag_cell hwf r c, ?_, ?_, ?_⟩
    · rw [flag_cell_rows]; exact hr
    · rw [flag_cell_cols]; exact hc
    · rw [← hm]
      refine mine_count_eq_of_bits ?_ ?_ ?_
      · rw [flag_cell_rows]
      · rw [flag_cell_cols]
      · intro i j _ _
        exact flag_cell_bit7 hwf r c i j
  · rintro g r c ⟨hwf, hr, hc, hm⟩
    refine ⟨WF_updCell hwf r c _, hr, hc, ?_⟩
    rw [← hm]
    exact mine_count_eq_of_bits rfl rfl
      (fun i j _ _ => observer_updCell_bit hwf r c _ 7 mark_toggle_bit7 i j)
  · exact fun g hg => hg

/-- Claim C8: in every state reachable after construction with
`mines < rows*cols` (the shuffled sequence being a permutation of
`0 .. rows*cols - 1`), exactly `mines` cells carry a mine — the
first-click relocation included, since it toggles one mine off and one
on. -/
theorem C8_mine_count_invariant (rows cols mines : Nat) (perm : List Nat) (g : Game)
    (hnd : perm.Nodup) (hbnd : ∀ x ∈ perm, x < rows * cols)
    (hlen : perm.length = rows * cols) (hmlt : mines < rows * cols)
    (h : Reachable (mkGame rows cols mines perm) g) :
    mine_count g = mines := by
  suffices hs : WF g ∧ g.rows = rows ∧ g.cols = cols ∧ mine_count g = mines by
    exact hs.2.2.2
  induction h with
  | init =>
    have hwf0 : WF (Game.mk rows cols mines
        (List.replicate rows (List.replicate cols 0)) false false 0 0) := by
      constructor
      · exact List.length_replicate _ _
      · intro row hrow
        rw [List.eq_of_mem_replicate hrow]
        exact List.length_replicate _ _
    have hcount0 : mine_count (Game.mk rows cols mines
        (List.replicate rows (List.replicate cols 0)) false false 0 0) = 0 := by
      unfold mine_count
      rw [List.countP_eq_zero]
      intro p _
      show ¬((cellD (List.replicate rows (List.replicate cols 0)) p.1 p.2).testBit 7 = true)
      rw [cellD_replicate, Nat.zero_testBit]
      simp
    have htake_nd : (perm.take mines).Nodup := (List.take_sublist _ _).nodup hnd
    have htake_bnd : ∀ x ∈ perm.take mines, x < rows * cols :=
      fun x hx => hbnd x (List.take_subset _ _ hx)
    have htake_len : (perm.take mines).length = mines := by
      rw [List.length_take, hlen]
      omega
    have hfresh : ∀ x ∈ perm.take mines,
        (Game.mk rows cols mines (List.replicate rows (List.replicate cols 0))
          false false 0 0).has_mine (x / cols) (x % cols) = false := by
      intro x _
      show (cellD (List.replicate rows (List.replicate cols 0)) _ _).testBit 7 = false
      rw [cellD_replicate, Nat.zero_testBit]
    obtain ⟨hwf1, hrows1, hcols1, hcount1⟩ := toggle_fold_count rows cols (perm.take mines)
      (Game.mk rows cols mines (List.replicate rows (List.replicate cols 0)) false false 0 0)
      hwf0 rfl rfl htake_nd htake_bnd hfresh
    rw [hcount0, htake_len, Nat.zero_add] at hcount1
    unfold mkGame
    exact recompute_preserve
      (fun x => WF x ∧ x.rows = rows ∧ x.cols = cols ∧ mine_count x = mines)
      (fun g3 rr cc hg3 => ⟨WF_set_adj hg3.1 rr cc, hg3.2.1, hg3.2.2.1, by
        rw [← hg3.2.2.2]
        exact mine_count_eq_of_bits rfl rfl (fun i j _ _ =>
          observer_updCell_bit hg3.1 rr cc _ 7
            (fun v2 => nib_byte_bit7 _ v2 (mined_neighbors_lt_16 g3 rr cc)) i j)⟩)
      ⟨hwf1, hrows1, hcols1, hcount1⟩
  | step cmd hre hb hstep ih =>
    exact mine_count_step rows cols mines _ cmd _ ih hstep

/-- Witness for `C8_mine_count_invariant` at the freshly constructed 1x2
board with one mine. -/
theorem C8_mine_count_witness :
    ([0, 1] : List Nat).Nodup ∧ (∀ x ∈ ([0, 1] : List Nat), x < 1 * 2) ∧
    ([0, 1] : List Nat).length = 1 * 2 ∧ 1 < 1 * 2 ∧
    mine_count (mkGame 1 2 1 [0, 1]) = 1 :=
  ⟨by decide, by decide, by decide, by decide,
    C8_mine_count_invariant 1 2 1 [0, 1] _ (by decide) (by decide) (by decide) (by decide)
      Reachable.init⟩

/-! ### The exact effect of check_win (claim C7) -/

theorem foldl_flatMap {α β γ : Type} (l : List α) (h : α → List β) (f : γ → β → γ)
    (init : γ) :
    (l.flatMap h).foldl f init = l.foldl (fun acc a => (h a).foldl f acc) init := by
  induction l generalizing init with
  | nil => rfl
  | cons a rest ih => rw [List.flatMap_cons, List.foldl_append, List.foldl_cons, ih]

theorem nested_fold_eq_allCells (F : Game → Nat → Nat → Game) (rows cols : Nat) (g : Game) :
    (List.range rows).foldl
        (fun ga i => (List.range cols).foldl (fun gb j => F gb i j) ga) g
      = (allCells rows cols).foldl (fun ga p => F ga p.1 p.2) g := by
  unfold allCells
  rw [foldl_flatMap]
  congr 1
  funext ga i
  rw [List.foldl_map]

theorem autoflag_byte_bit7 (v : Nat) : (autoflag_byte v).testBit 7 = v.testBit 7 := by
  unfold autoflag_byte
  cases h7 : v.testBit 7 <;> cases h6 : v.testBit 6 <;> cases h5 : v.testBit 5 <;>
    simp [h7, h6, h5, flag_toggle_bit7]

theorem autoflag_byte_bit6 (v : Nat) : (autoflag_byte v).testBit 6 = v.testBit 6 := by
  unfold autoflag_byte
  cases h7 : v.testBit 7 <;> cases h6 : v.testBit 6 <;> cases h5 : v.testBit 5 <;>
    simp [h7, h6, h5, flag_toggle_bit6]

theorem autoflag_byte_bit5 (v : Nat) :
    (autoflag_byte v).testBit 5 = (v.testBit 5 || (v.testBit 7 && !v.testBit 6)) := by
  unfold autoflag_byte
  cases h7 : v.testBit 7 <;> cases h6 : v.testBit 6 <;> cases h5 : v.testBit 5 <;>
    simp [h7, h6, h5, flag_toggle_bit5]

theorem autoflag_byte_bit4 (v : Nat) :
    (autoflag_byte v).testBit 4
      = (v.testBit 4 && !(v.testBit 7 && !v.testBit 6 && !v.testBit 5)) := by
  unfold autoflag_byte
  cases h7 : v.testBit 7 <;> cases h6 : v.testBit 6 <;> cases h5 : v.testBit 5 <;>
    simp [h7, h6, h5, flag_toggle_bit4]

theorem autoflag_byte_nib (v : Nat) : autoflag_byte v &&& 15 = v &&& 15 := by
  unfold autoflag_byte
  cases h7 : v.testBit 7 <;> cases h6 : v.testBit 6 <;> cases h5 : v.testBit 5 <;>
    simp [h7, h6, h5, flag_toggle_nib]

/-- One iteration of the auto-flag loop, fully described. -/
theorem autoflag_step {g : Game} (hwf : WF g) {r c : Nat} (hr : r < g.rows)
    (hc : c < g.cols) :
    WF (autoflag_cell g r c) ∧ (autoflag_cell g r c).rows = g.rows ∧
    (autoflag_cell g r c).cols = g.cols ∧
    cellD (autoflag_cell g r c).board r c = autoflag_byte (cellD g.board r c) ∧
    (∀ i j, ¬(i = r ∧ j = c) → cellD (autoflag_cell g r c).board i j = cellD g.board i j) ∧
    (autoflag_cell g r c).cells_flagged
      = g.cells_flagged + (if newly_flagged g (r, c) then 1 else 0) ∧
    (autoflag_cell g r c).game_over = g.game_over ∧ (autoflag_cell g r c).won = g.won ∧
    (autoflag_cell g r c).open_cells = g.open_cells := by
  unfold autoflag_cell
  by_cases hcond : g.has_mine r c = true ∧ ¬g.has_flag r c = true
  · rw [if_pos hcond]
    obtain ⟨hmine, hnflag⟩ := hcond
    have hflagf : g.has_flag r c = false := by
      cases hb : g.has_flag r c
      · rfl
      · exact absurd hb hnflag
    unfold Game.flag_cell
    by_cases ho : g.is_open r c = true
    · rw [if_pos ho]
      have hbyte : autoflag_byte (cellD g.board r c) = cellD g.board r c := by
        unfold autoflag_byte
        rw [if_pos (⟨hmine, hnflag⟩ : (cellD g.board r c).testBit 7 = true ∧
          ¬(cellD g.board r c).testBit 5 = true)]
        rw [if_pos (show (cellD g.board r c).testBit 6 = true from ho)]
      have hnew : newly_flagged g (r, c) = false := by
        unfold newly_flagged
        show (g.has_mine r c && !g.is_open r c && !g.has_flag r c) = false
        rw [ho]
        simp
      rw [hbyte, hnew]
      exact ⟨hwf, rfl, rfl, rfl, fun i j _ => rfl, by simp, rfl, rfl, rfl⟩
    · rw [if_neg ho]
      have hof : g.is_open r c = false := by
        cases hb : g.is_open r c
        · rfl
        · exact absurd hb ho
      have hcell : cellD (updCell g r c flag_toggle_byte).board r c
          = flag_toggle_byte (cellD g.board r c) := by
        rw [cellD_updCell hwf hr hc, if_pos ⟨rfl, rfl⟩]
      have ht : (cellD (updCell g r c flag_toggle_byte).board r c).testBit 5 = true := by
        rw [hcell, flag_toggle_bit5]
        have h2 : (cellD g.board r c).testBit 5 = false := hflagf
        rw [h2]
        rfl
      rw [if_pos ht]
      have hbyte : autoflag_byte (cellD g.board r c)
          = flag_toggle_byte (cellD g.board r c) := by
        unfold autoflag_byte
        rw [if_pos (⟨hmine, hnflag⟩ : (cellD g.board r c).testBit 7 = true ∧
          ¬(cellD g.board r c).testBit 5 = true)]
        rw [if_neg (by rw [show (cellD g.board r c).testBit 6 = false from hof]; simp)]
      have hnew : newly_flagged g (r, c) = true := by
        unfold newly_flagged
        show (g.has_mine r c && !g.is_open r c && !g.has_flag r c) = true
        rw [hmine, hof, hflagf]
        rfl
      refine ⟨WF_updCell hwf r c _, rfl, rfl, ?_, ?_, ?_, rfl, rfl, rfl⟩
      · rw [hbyte]
        exact hcell
      · intro i j hij
        show cellD (updCell g r c flag_toggle_byte).board i j = cellD g.board i j
        rw [cellD_updCell hwf hr hc, if_neg hij]
      · rw [hnew]
        rfl
  · rw [if_neg hcond]
    have hbyte : autoflag_byte (cellD g.board r c) = cellD g.board r c := by
      unfold autoflag_byte
      have hcond2 : ¬((cellD g.board r c).testBit 7 = true ∧
          ¬(cellD g.board r c).testBit 5 = true) := hcond
      rw [if_neg hcond2]
    have hnew : newly_flagged g (r, c) = false := by
      unfold newly_flagged
      show (g.has_mine r c && !g.is_open r c && !g.has_flag r c) = false
      cases hm : g.has_mine r c
      · rfl
      · have hf : g.has_flag r c = true := by
          by_contra hh
          exact hcond ⟨hm, hh⟩
        rw [hf]
        simp
    rw [hbyte, hnew]
    exact ⟨hwf, rfl, rfl, rfl, fun i j _ => rfl, by simp, rfl, rfl, rfl⟩

/-- The whole auto-flag pass over a duplicate-free list of in-bounds
cells: each listed cell's byte gets `autoflag_byte`, nothing else
changes, and the counter gains one per newly flagged cell. -/
theorem autoflag_fold :
    ∀ (l : List (Nat × Nat)) (g : Game), WF g → l.Nodup →
      (∀ p ∈ l, p.1 < g.rows ∧ p.2 < g.cols) →
      WF (l.foldl (fun ga p => autoflag_cell ga p.1 p.2) g) ∧
      (l.foldl (fun ga p => autoflag_cell ga p.1 p.2) g).rows = g.rows ∧
      (l.foldl (fun ga p => autoflag_cell ga p.1 p.2) g).cols = g.cols ∧
      (∀ p ∈ l, cellD (l.foldl (fun ga p => autoflag_cell ga p.1 p.2) g).board p.1 p.2
        = autoflag_byte (cellD g.board p.1 p.2)) ∧
      (∀ i j, (∀ p ∈ l, (i, j) ≠ p) →
        cellD (l.foldl (fun ga p => autoflag_cell ga p.1 p.2) g).board i j
          = cellD g.board i j) ∧
      (l.foldl (fun ga p => autoflag_cell ga p.1 p.2) g).cells_flagged
        = g.cells_flagged + (l.countP (newly_flagged g) : Int) ∧
      (l.foldl (fun ga p => autoflag_cell ga p.1 p.2) g).game_over = g.game_over ∧
      (l.foldl (fun ga p => autoflag_cell ga p.1 p.2) g).won = g.won ∧
      (l.foldl (fun ga p => autoflag_cell ga p.1 p.2) g).open_cells = g.open_cells
  | [], g, hwf, _, _ => by
    refine ⟨hwf, rfl, rfl, ?_, ?_, ?_, rfl, rfl, rfl⟩
    · intro p hp
      cases hp
    · intro i j _
      rfl
    · simp
  | q :: rest, g, hwf, hnd, hbnd => by
    obtain ⟨qr, qc⟩ := q
    have hq := hbnd (qr, qc) (List.mem_cons_self _ _)
    obtain ⟨hstepWF, hstepR, hstepC, hstepCell, hstepFrame, hstepCnt, hstepGO, hstepW,
      hstepOC⟩ := autoflag_step hwf hq.1 hq.2
    have hbnd2 : ∀ p ∈ rest, p.1 < (autoflag_cell g qr qc).rows ∧
        p.2 < (autoflag_cell g qr qc).cols := by
      intro p hp
      rw [hstepR, hstepC]
      exact hbnd p (List.mem_cons_of_mem _ hp)
    have hnotin : (qr, qc) ∉ rest := (List.nodup_cons.1 hnd).1
    obtain ⟨hWF, hR, hC, hCell, hFrame, hCnt, hGO, hW, hOC⟩ :=
      autoflag_fold rest (autoflag_cell g qr qc) hstepWF (List.nodup_cons.1 hnd).2 hbnd2
    rw [List.foldl_cons]
    have hframe_q : ∀ p ∈ rest, cellD (autoflag_cell g qr qc).board p.1 p.2
        = cellD g.board p.1 p.2 := by
      intro p hp
      refine hstepFrame p.1 p.2 ?_
      rintro ⟨h1, h2⟩
      apply hnotin
      have : p = (qr, qc) := Prod.ext_iff.2 ⟨h1, h2⟩
      rw [← this]
      exact hp
    refine ⟨hWF, by rw [hR, hstepR], by rw [hC, hstepC], ?_, ?_, ?_,
      by rw [hGO, hstepGO], by rw [hW, hstepW], by rw [hOC, hstepOC]⟩
    · rintro ⟨pr, pc⟩ hp
      rcases List.mem_cons.1 hp with he | hp2
      · injection he with e1 e2
        subst e1; subst e2
        rw [hFrame pr pc ?_, hstepCell]
        intro p hp3
        intro he2
        apply hnotin
        rw [he2]
        exact hp3
      · rw [hCell (pr, pc) hp2, hframe_q (pr, pc) hp2]
    · intro i j hne
      rw [hFrame i j (fun p hp => hne p (List.mem_cons_of_mem _ hp)),
        hstepFrame i j ?_]
      have := hne (qr, qc) (List.mem_cons_self _ _)
      rintro ⟨h1, h2⟩
      exact this (Prod.ext_iff.2 ⟨h1, h2⟩)
    · have hagree : rest.countP (newly_flagged (autoflag_cell g qr qc))
          = rest.countP (newly_flagged g) := by
        refine countP_eq_of_agree ?_
        intro p hp
        unfold newly_flagged
        have hcc := hframe_q p hp
        show ((cellD (autoflag_cell g qr qc).board p.1 p.2).testBit 7 &&
            !(cellD (autoflag_cell g qr qc).board p.1 p.2).testBit 6 &&
            !(cellD (autoflag_cell g qr qc).board p.1 p.2).testBit 5) = _
        rw [hcc]
        rfl
      rw [hCnt, hagree, hstepCnt, List.countP_cons]
      have hif : (if newly_flagged g (qr, qc) = true then 1 else 0)
          = (if newly_flagged g (qr, qc) then 1 else 0) := rfl
      push_cast
      omega

/-- Claim C7 (amended): `check_win(r, c)` fires — setting `won` and
`game_over` — exactly when `open_cells + mines = rows * cols` and
`(r, c)` carries no mine; when it fires, every mined *closed* cell gets
flagged (an open mined cell is skipped, since `flag_cell` refuses open
cells), newly flagged cells lose their mark, nothing else on the board
changes, and the flag counter grows by exactly the number of newly
flagged cells; when it does not fire, the state is unchanged. -/
theorem C7_check_win_exact (g : Game) (r c : Nat) (hwf : WF g) :
    (¬(g.open_cells + g.mines = g.rows * g.cols ∧ ¬g.has_mine r c = true) →
      g.check_win r c = g) ∧
    ((g.open_cells + g.mines = g.rows * g.cols ∧ ¬g.has_mine r c = true) →
      (g.check_win r c).won = true ∧ (g.check_win r c).game_over = true ∧
      (∀ i j, i < g.rows → j < g.cols →
        (g.check_win r c).has_flag i j
          = (g.has_flag i j || (g.has_mine i j && !g.is_open i j)) ∧
        (g.check_win r c).has_mine i j = g.has_mine i j ∧
        (g.check_win r c).is_open i j = g.is_open i j ∧
        (g.check_win r c).num_adj_mines i j = g.num_adj_mines i j ∧
        (g.check_win r c).has_mark i j
          = (g.has_mark i j &&
             !(g.has_mine i j && !g.is_open i j && !g.has_flag i j))) ∧
      (g.check_win r c).flags
        = g.flags + ((allCells g.rows g.cols).countP (newly_flagged g) : Int)) := by
  constructor
  · intro hcond
    unfold Game.check_win
    rw [if_neg hcond]
  · intro hcond
    unfold Game.check_win
    rw [if_pos hcond]
    rw [nested_fold_eq_allCells autoflag_cell g.rows g.cols]
    have hwf2 : WF ({ g with won := true, game_over := true } : Game) := hwf
    have hbnd : ∀ p ∈ allCells g.rows g.cols,
        p.1 < ({ g with won := true, game_over := true } : Game).rows ∧
        p.2 < ({ g with won := true, game_over := true } : Game).cols := by
      intro p hp
      exact mem_allCells.1 hp
    obtain ⟨hWF, hR, hC, hCell, hFrame, hCnt, hGO, hW, hOC⟩ :=
      autoflag_fold (allCells g.rows g.cols) { g with won := true, game_over := true }
        hwf2 (nodup_allCells _ _) hbnd
    refine ⟨hW, hGO, ?_, ?_⟩
    · intro i j hi hj
      have hcell := hCell (i, j) (mem_allCells.2 ⟨hi, hj⟩)
      have hb5 := autoflag_byte_bit5 (cellD g.board i j)
      have hb7 := autoflag_byte_bit7 (cellD g.board i j)
      have hb6 := autoflag_byte_bit6 (cellD g.board i j)
      have hb4 := autoflag_byte_bit4 (cellD g.board i j)
      have hnib := autoflag_byte_nib (cellD g.board i j)
      refine ⟨?_, ?_, ?_, ?_, ?_⟩
      · show (cellD _ i j).testBit 5 = _
        rw [hcell]
        exact hb5
      · show (cellD _ i j).testBit 7 = _
        rw [hcell]
        exact hb7
      · show (cellD _ i j).testBit 6 = _
        rw [hcell]
        exact hb6
      · show cellD _ i j &&& 15 = _
        rw [hcell]
        exact hnib
      · show (cellD _ i j).testBit 4 = _
        rw [hcell]
        exact hb4
    · exact hCnt

/-- Witness for `C7_check_win_exact`: the 1x2 board of the spec's
scenario A (mine at `(0, 1)`). -/
theorem C7_check_win_witness :
    WF (mkGame 1 2 1 [1, 0]) ∧
    (¬((mkGame 1 2 1 [1, 0]).open_cells + (mkGame 1 2 1 [1, 0]).mines
        = (mkGame 1 2 1 [1, 0]).rows * (mkGame 1 2 1 [1, 0]).cols ∧
        ¬(mkGame 1 2 1 [1, 0]).has_mine 0 0 = true) →
      (mkGame 1 2 1 [1, 0]).check_win 0 0 = mkGame 1 2 1 [1, 0]) :=
  ⟨by decide, (C7_check_win_exact (mkGame 1 2 1 [1, 0]) 0 0 (by decide)).1⟩

/-- Claim C1 (code bug, failing input): on the 1x2 board whose shuffle
put the mine at cell `(0,0)`, the very first `open_cell(0,0)` throws
`BadGameState` instead of relocating the mine to the mine-free cell
`(0,1)`: `first_open_cell` scans `j < rows_` (= 1) instead of
`j < cols_` (= 2, Game.cxx line 238), so it never reaches the safe
cell. -/
theorem C1_first_open_throws_despite_safe_cell :
    (mkGame 1 2 1 [0, 1]).has_mine 0 0 = true ∧
    (mkGame 1 2 1 [0, 1]).has_mine 0 1 = false ∧
    (mkGame 1 2 1 [0, 1]).open_cell 0 0
      = .error (.badGameState "No safe cells present in board") := by
  refine ⟨by decide, by decide, by decide⟩

/-- Claim C5 (code bug, failing input): on the 2x1 board with the mine
at `(0,0)`, the first `open_cell(0,0)` makes `first_open_cell` read
`board_[0][1]` although the board has a single column: the inner scan
bound is `rows_` (= 2) instead of `cols_` (= 1), an out-of-bounds access
— even though a mine-free cell `(1,0)` exists. -/
theorem C5_first_open_reads_out_of_bounds :
    (mkGame 2 1 1 [0, 1]).has_mine 1 0 = false ∧
    (mkGame 2 1 1 [0, 1]).open_cell 0 0 = .error .outOfBounds := by
  refine ⟨by decide, by decide⟩

/-- Claim C2 (counterexample): after losing on the 1x3 board with the
mine at `(0,2)` (open `(0,1)`, then the mine), the game is over, yet a
further `flag_cell(0,0)` raises the flag bit and a further
`mark_cell(0,0)` raises the mark bit: the `Game` methods check no
`game_over_` guard, so command calls after game over are not no-ops. -/
theorem C2_commands_mutate_after_game_over :
    (((mkGame 1 3 1 [2, 0, 1]).open_cell 0 1).bind (fun g => g.open_cell 0 2)).map
      (fun g => (g.is_over, g.has_won, g.has_flag 0 0, (g.flag_cell 0 0).has_flag 0 0,
                 g.has_mark 0 0, (g.mark_cell 0 0).has_mark 0 0))
      = .ok (true, false, false, true, false, true) := by decide

/-- Claim C3 (counterexample): flag the closed cell `(0,0)` (counter
becomes 1), then `mark_cell(0,0)`: the mark operation clears the flag
bit but leaves `cells_flagged_` untouched, so `flags()` returns 1 while
no cell is flagged. -/
theorem C3_mark_desyncs_flag_counter :
    (((mkGame 1 3 1 [2, 0, 1]).flag_cell 0 0).mark_cell 0 0).flags = 1 ∧
    flag_count (((mkGame 1 3 1 [2, 0, 1]).flag_cell 0 0).mark_cell 0 0) = 0 := by
  refine ⟨by decide, by decide⟩

/-- Claim C4 (counterexample): open the safe cell `(0,1)` of the 1x3
board, then `mark_cell(0,1)`: since `mark_cell` performs no openness
check, the cell ends with `is_open` and `has_mark` simultaneously
true. -/
theorem C4_open_and_mark_simultaneously :
    ((mkGame 1 3 1 [2, 0, 1]).open_cell 0 1).map
      (fun g => ((g.mark_cell 0 1).is_open 0 1, (g.mark_cell 0 1).has_mark 0 1))
      = .ok (true, true) := by decide

/-- Claim C6 (counterexample): on a mine-free 1x3 board flag `(0,1)` and
open `(0,0)`: the clicked cell is closed, unflagged, unmarked with zero
adjacent mines, and `(0,2)` belongs to its connected zero region (chain
`(0,0) — (0,1) — (0,2)`, all with adjacency 0), yet `(0,2)` remains
closed because the flood fill will not pass through the flagged
`(0,1)`. -/
theorem C6_flood_blocked_by_flag :
    (((mkGame 1 3 0 [0, 1, 2]).flag_cell 0 1).is_open 0 0 = false ∧
     ((mkGame 1 3 0 [0, 1, 2]).flag_cell 0 1).has_flag 0 0 = false ∧
     ((mkGame 1 3 0 [0, 1, 2]).flag_cell 0 1).has_mark 0 0 = false ∧
     ((mkGame 1 3 0 [0, 1, 2]).flag_cell 0 1).num_adj_mines 0 0 = 0 ∧
     ((mkGame 1 3 0 [0, 1, 2]).flag_cell 0 1).num_adj_mines 0 1 = 0) ∧
    (0, 1) ∈ ((mkGame 1 3 0 [0, 1, 2]).flag_cell 0 1).adjacent_cells 0 0 ∧
    (0, 2) ∈ ((mkGame 1 3 0 [0, 1, 2]).flag_cell 0 1).adjacent_cells 0 1 ∧
    (((mkGame 1 3 0 [0, 1, 2]).flag_cell 0 1).open_cell 0 0).map
      (fun g => g.is_open 0 2) = .ok false := by
  refine ⟨by decide, by decide, by decide, by decide⟩

/-- Claim C7 (counterexample): on the 1x3 board with the mine at
`(0,2)`, open `(0,1)` and then the mine `(0,2)` (a loss: the cell is now
open and mined); calling `check_win(0,0)` finds
`open_cells_ + mines_ = rows_ * cols_` and no mine at `(0,0)`, so it
sets `won_` — but the auto-flag pass leaves the mined cell `(0,2)`
unflagged, because `flag_cell` refuses open cells. -/
theorem C7_autoflag_skips_open_mine :
    (((mkGame 1 3 1 [2, 0, 1]).open_cell 0 1).bind (fun g => g.open_cell 0 2)).map
      (fun g =>
        (g.open_cells + g.mines == g.rows * g.cols, (g.check_win 0 0).has_won,
         (g.check_win 0 0).has_mine 0 2, (g.check_win 0 0).is_open 0 2,
         (g.check_win 0 0).has_flag 0 2))
      = .ok (true, true, true, true, false) := by decide

/-- Claim C2 (amended): once the game is over, the interactive loop of
play.cxx runs `while (!game.is_over())`, so no further command is
dispatched and the state stays untouched for the rest of the round. -/
theorem C2_loop_freezes_after_game_over (g : Game) (cmd : Cmd) (h : g.is_over = true) :
    loop_step g cmd = .ok g := by
  simp [loop_step, h]

/-- Witness for `C2_loop_freezes_after_game_over` at a concrete
game-over state. -/
theorem C2_loop_freezes_witness :
    ({ mkGame 1 1 0 [0] with game_over := true } : Game).is_over = true ∧
    loop_step { mkGame 1 1 0 [0] with game_over := true } (Cmd.flag 0 0)
      = .ok { mkGame 1 1 0 [0] with game_over := true } :=
  ⟨by decide, C2_loop_freezes_after_game_over _ _ (by decide)⟩

/-- Claim C9 (spec-modelled): the seeded constructor overload is a
function of `(rows, cols, mines, seed)`: two constructions with the same
seed have identical mine layouts, and replaying the same first
`open_cell` (first-click relocation included) yields identical
states. -/
theorem C9_seeded_construction_deterministic (rows cols mines seed r c : Nat)
    (g1 g2 : Game) (h1 : g1 = mkGameSeeded rows cols mines seed)
    (h2 : g2 = mkGameSeeded rows cols mines seed) :
    g1.board = g2.board ∧ g1.open_cell r c = g2.open_cell r c := by
  subst h1; subst h2; exact ⟨rfl, rfl⟩

/-- Witness for `C9_seeded_construction_deterministic`: the 4x4 board
with 2 mines of the spec's scenario B, seed 7, first open at (0,0). -/
theorem C9_seeded_witness :
    mkGameSeeded 4 4 2 7 = mkGameSeeded 4 4 2 7 ∧
    ((mkGameSeeded 4 4 2 7).board = (mkGameSeeded 4 4 2 7).board ∧
     (mkGameSeeded 4 4 2 7).open_cell 0 0 = (mkGameSeeded 4 4 2 7).open_cell 0 0) :=
  ⟨rfl, C9_seeded_construction_deterministic 4 4 2 7 0 0 _ _ rfl rfl⟩

/-- Claim C10: `mark_cell` leaves `flags()` unchanged — even when it
clears a set flag bit — changes nothing outside the flag and mark bits
of the addressed cell, and performs no openness check, so it toggles the
mark bit of an open cell too (no `is_open` hypothesis appears below). -/
theorem C10_mark_cell_frame (g : Game) (r c : Nat) (hwf : WF g)
    (hr : r < g.rows) (hc : c < g.cols) :
    (g.mark_cell r c).flags = g.flags ∧
    (g.mark_cell r c).has_mark r c = !g.has_mark r c ∧
    (g.mark_cell r c).has_flag r c = false ∧
    (g.mark_cell r c).is_open r c = g.is_open r c ∧
    (g.mark_cell r c).has_mine r c = g.has_mine r c ∧
    (g.mark_cell r c).num_adj_mines r c = g.num_adj_mines r c ∧
    (∀ i j, ¬(i = r ∧ j = c) → cellD (g.mark_cell r c).board i j = cellD g.board i j) ∧
    (g.mark_cell r c).game_over = g.game_over ∧
    (g.mark_cell r c).won = g.won ∧
    (g.mark_cell r c).open_cells = g.open_cells := by
  unfold Game.mark_cell
  refine ⟨rfl, ?_, ?_, ?_, ?_, ?_, ?_, rfl, rfl, rfl⟩
  · show (cellD _ r c).testBit 4 = _
    rw [cellD_updCell hwf hr hc, if_pos ⟨rfl, rfl⟩, mark_toggle_bit4]; rfl
  · show (cellD _ r c).testBit 5 = _
    rw [cellD_updCell hwf hr hc, if_pos ⟨rfl, rfl⟩, mark_toggle_bit5]
  · show (cellD _ r c).testBit 6 = _
    rw [cellD_updCell hwf hr hc, if_pos ⟨rfl, rfl⟩, mark_toggle_bit6]; rfl
  · show (cellD _ r c).testBit 7 = _
    rw [cellD_updCell hwf hr hc, if_pos ⟨rfl, rfl⟩, mark_toggle_bit7]; rfl
  · show cellD _ r c &&& 15 = _
    rw [cellD_updCell hwf hr hc, if_pos ⟨rfl, rfl⟩, mark_toggle_nib]; rfl
  · intro i j h
    rw [cellD_updCell hwf hr hc, if_neg h]

/-- Witness for `C10_mark_cell_frame` on a concrete board. -/
theorem C10_mark_cell_witness :
    WF (mkGame 2 2 1 [0, 1, 2, 3]) ∧ 0 < (mkGame 2 2 1 [0, 1, 2, 3]).rows ∧
    1 < (mkGame 2 2 1 [0, 1, 2, 3]).cols ∧
    ((mkGame 2 2 1 [0, 1, 2, 3]).mark_cell 0 1).flags = (mkGame 2 2 1 [0, 1, 2, 3]).flags :=
  ⟨by decide, by decide, by decide,
    (C10_mark_cell_frame (mkGame 2 2 1 [0, 1, 2, 3]) 0 1 (by decide) (by decide) (by decide)).1⟩

/-! ### The flood-fill characterization (claim C6) -/

theorem adjacent_cells_congr {g g2 : Game} (hr : g2.rows = g.rows) (hc : g2.cols = g.cols)
    (a b : Nat) : g2.adjacent_cells a b = g.adjacent_cells a b := by
  unfold Game.adjacent_cells
  rw [hr, hc]

theorem closed_count_le (g : Game) : closed_count g ≤ g.rows * g.cols := by
  unfold closed_count
  calc (allCells g.rows g.cols).countP (fun p => !g.is_open p.1 p.2)
      ≤ (allCells g.rows g.cols).length := List.countP_le_length _
    _ = g.rows * g.cols := length_allCells _ _

theorem WF_open_mark {g : Game} (hwf : WF g) (a b : Nat) : WF (open_mark g a b) := by
  have h := WF_updCell hwf a b open_byte
  exact ⟨h.1, h.2⟩

theorem has_flag_open_mark (g : Game) (hwf : WF g) (a b i j : Nat) :
    (open_mark g a b).has_flag i j = g.has_flag i j := by
  show (cellD (updCell g a b open_byte).board i j).testBit 5 = _
  exact observer_updCell_bit hwf a b open_byte 5 open_byte_bit5 i j

theorem has_mark_open_mark (g : Game) (hwf : WF g) (a b i j : Nat) :
    (open_mark g a b).has_mark i j = g.has_mark i j := by
  show (cellD (updCell g a b open_byte).board i j).testBit 4 = _
  exact observer_updCell_bit hwf a b open_byte 4 open_byte_bit4 i j

theorem has_mine_open_mark (g : Game) (hwf : WF g) (a b i j : Nat) :
    (open_mark g a b).has_mine i j = g.has_mine i j := by
  show (cellD (updCell g a b open_byte).board i j).testBit 7 = _
  exact observer_updCell_bit hwf a b open_byte 7 open_byte_bit7 i j

theorem num_adj_open_mark (g : Game) (hwf : WF g) (a b i j : Nat) :
    (open_mark g a b).num_adj_mines i j = g.num_adj_mines i j := by
  show cellD (updCell g a b open_byte).board i j &&& 15 = _
  exact observer_updCell_nib hwf a b open_byte open_byte_nib i j

theorem is_open_open_mark_ne {g : Game} (hwf : WF g) (a b i j : Nat)
    (hne : ¬(i = a ∧ j = b)) : (open_mark g a b).is_open i j = g.is_open i j := by
  show (cellD (updCell g a b open_byte).board i j).testBit 6 = _
  by_cases hb2 : a < g.rows ∧ b < g.cols
  · rw [cellD_updCell hwf hb2.1 hb2.2, if_neg hne]
    rfl
  · rw [updCell_board_oob hwf hb2]
    rfl

theorem is_open_open_mark_self {g : Game} (hwf : WF g) {a b : Nat} (ha : a < g.rows)
    (hb : b < g.cols) : (open_mark g a b).is_open a b = true := by
  show (cellD (updCell g a b open_byte).board a b).testBit 6 = true
  rw [cellD_updCell hwf ha hb, if_pos ⟨rfl, rfl⟩, open_byte_bit6]

theorem is_open_open_mark_mono {g : Game} (hwf : WF g) (a b i j : Nat)
    (h : g.is_open i j = true) : (open_mark g a b).is_open i j = true := by
  by_cases hij : i = a ∧ j = b
  · obtain ⟨hi, hj⟩ := hij
    subst hi; subst hj
    by_cases hb2 : i < g.rows ∧ j < g.cols
    · exact is_open_open_mark_self hwf hb2.1 hb2.2
    · show (cellD (updCell g i j open_byte).board i j).testBit 6 = true
      rw [updCell_board_oob hwf hb2]
      exact h
  · rw [is_open_open_mark_ne hwf a b i j hij]
    exact h

theorem flood_rel_open_mark {g0 g : Game} (hrel : flood_rel g0 g) (a b : Nat) :
    flood_rel g0 (open_mark g a b) := by
  obtain ⟨hR, hC, hGO, hW, hCF, hWF, hOBS, hMONO⟩ := hrel
  refine ⟨hR, hC, hGO, hW, hCF, WF_open_mark hWF a b, ?_, ?_⟩
  · intro x y
    refine ⟨?_, ?_, ?_, ?_⟩
    · rw [has_flag_open_mark g hWF a b x y]
      exact (hOBS x y).1
    · rw [has_mark_open_mark g hWF a b x y]
      exact (hOBS x y).2.1
    · rw [has_mine_open_mark g hWF a b x y]
      exact (hOBS x y).2.2.1
    · rw [num_adj_open_mark g hWF a b x y]
      exact (hOBS x y).2.2.2
  · intro x y h
    exact is_open_open_mark_mono hWF a b x y (hMONO x y h)

theorem closed_count_open_mark {g : Game} (hwf : WF g) {a b : Nat} (ha : a < g.rows)
    (hb : b < g.cols) (hclosed : g.is_open a b = false) :
    closed_count g = closed_count (open_mark g a b) + 1 := by
  have h1 : closed_count (open_mark g a b)
      = (allCells g.rows g.cols).countP (fun p => !(open_mark g a b).is_open p.1 p.2) := rfl
  rw [h1]
  unfold closed_count
  refine countP_flip_true (nodup_allCells g.rows g.cols)
    ((@mem_allCells g.rows g.cols (a, b)).2 ⟨ha, hb⟩) ?_ ?_ ?_
  · intro p _ hne
    show (!g.is_open p.1 p.2) = (!(open_mark g a b).is_open p.1 p.2)
    have hne2 : ¬(p.1 = a ∧ p.2 = b) := by
      rintro ⟨h1, h2⟩
      exact hne (Prod.ext h1 h2)
    rw [is_open_open_mark_ne hwf a b p.1 p.2 hne2]
  · show (!(open_mark g a b).is_open a b) = false
    rw [is_open_open_mark_self hwf ha hb]
    rfl
  · show (!g.is_open a b) = true
    rw [hclosed]
    rfl

/-- The neighbour loop of the zero-adjacency flood branch: folding one
recursive `open_cell` call per listed cell.  Given the behaviour of a
single call at the current fuel (hypothesis `IH`), the fold succeeds,
stays in the flood relation, only grows the opened set and only within
the region, opens every listed unflagged unmarked cell, and leaves every
cell it newly opened with a zero nibble saturated (all its unflagged
unmarked neighbours opened). -/
theorem flood_list (g0 : Game) (r0 c0 : Nat) (fuel : Nat)
    (IH : ∀ g a b, flood_rel g0 g →
      a < g0.rows → b < g0.cols → g0.has_mine a b = false →
      ((g0.is_open a b = false ∧ g0.has_flag a b = false ∧ g0.has_mark a b = false) →
        InRegion g0 r0 c0 a b) →
      closed_count g < fuel →
      ∃ g2, open_cell_fuel fuel g a b = .ok g2 ∧
        flood_rel g0 g2 ∧
        (∀ x y, g.is_open x y = true → g2.is_open x y = true) ∧
        (∀ x y, g2.is_open x y = true → g.is_open x y = true ∨ InRegion g0 r0 c0 x y) ∧
        ((g.is_open a b = false ∧ g0.has_flag a b = false ∧ g0.has_mark a b = false) →
          g2.is_open a b = true) ∧
        (∀ x y, g2.is_open x y = true → g.is_open x y = false →
          g0.num_adj_mines x y = 0 →
          ∀ p ∈ g0.adjacent_cells x y, g0.has_flag p.1 p.2 = false →
            g0.has_mark p.1 p.2 = false → g2.is_open p.1 p.2 = true) ∧
        closed_count g2 ≤ closed_count g) :
    ∀ (l : List (Nat × Nat)) (gc : Game), flood_rel g0 gc →
      (∀ p ∈ l, p.1 < g0.rows ∧ p.2 < g0.cols ∧ g0.has_mine p.1 p.2 = false ∧
        ((g0.is_open p.1 p.2 = false ∧ g0.has_flag p.1 p.2 = false ∧
          g0.has_mark p.1 p.2 = false) → InRegion g0 r0 c0 p.1 p.2)) →
      closed_count gc < fuel →
      ∃ gL, l.foldl (fun (acc : Except GameError Game) p =>
          acc.bind (fun gg => open_cell_fuel fuel gg p.1 p.2)) (.ok gc) = .ok gL ∧
        flood_rel g0 gL ∧
        (∀ x y, gc.is_open x y = true → gL.is_open x y = true) ∧
        (∀ x y, gL.is_open x y = true → gc.is_open x y = true ∨ InRegion g0 r0 c0 x y) ∧
        (∀ p ∈ l, g0.has_flag p.1 p.2 = false → g0.has_mark p.1 p.2 = false →
          gL.is_open p.1 p.2 = true) ∧
        (∀ x y, gL.is_open x y = true → gc.is_open x y = false →
          g0.num_adj_mines x y = 0 →
          ∀ p ∈ g0.adjacent_cells x y, g0.has_flag p.1 p.2 = false →
            g0.has_mark p.1 p.2 = false → gL.is_open p.1 p.2 = true) ∧
        closed_count gL ≤ closed_count gc := by
  intro l
  induction l with
  | nil =>
    intro gc hrel _ _
    refine ⟨gc, rfl, hrel, fun x y h => h, fun x y h => Or.inl h,
      fun p hp => absurd hp (List.not_mem_nil p), ?_, Nat.le_refl _⟩
    intro x y h1 h2
    rw [h2] at h1
    exact absurd h1 Bool.false_ne_true
  | cons p rest ihl =>
    intro gc hrel hl hfuel
    obtain ⟨px, py⟩ := p
    obtain ⟨hpx, hpy, hpmine, hpreg⟩ := hl (px, py) (List.mem_cons_self _ _)
    obtain ⟨g1, hok1, hrel1, hmono1, hcont1, hopens1, hsat1, hcc1⟩ :=
      IH gc px py hrel hpx hpy hpmine hpreg hfuel
    have hfuel1 : closed_count g1 < fuel := Nat.lt_of_le_of_lt hcc1 hfuel
    obtain ⟨gL, hokL, hrelL, hmonoL, hcontL, hCLL, hsatL, hccL⟩ :=
      ihl g1 hrel1 (fun q hq => hl q (List.mem_cons_of_mem _ hq)) hfuel1
    refine ⟨gL, ?_, hrelL, ?_, ?_, ?_, ?_, ?_⟩
    · have h0 : ((px, py) :: rest).foldl (fun (acc : Except GameError Game) p =>
            acc.bind (fun gg => open_cell_fuel fuel gg p.1 p.2)) (.ok gc)
          = rest.foldl (fun (acc : Except GameError Game) p =>
            acc.bind (fun gg => open_cell_fuel fuel gg p.1 p.2))
            (open_cell_fuel fuel gc px py) := rfl
      rw [h0, hok1]
      exact hokL
    · exact fun x y h => hmonoL x y (hmono1 x y h)
    · intro x y h
      rcases hcontL x y h with h1 | h1
      · exact hcont1 x y h1
      · exact Or.inr h1
    · intro q hq hqf hqm
      rcases List.mem_cons.1 hq with hq1 | hq1
      · subst hq1
        cases hgco : gc.is_open px py with
        | true => exact hmonoL px py (hmono1 px py hgco)
        | false => exact hmonoL px py (hopens1 ⟨hgco, hqf, hqm⟩)
      · exact hCLL q hq1 hqf hqm
    · intro x y hxyL hxygc hz q hq hqf hqm
      cases hg1 : g1.is_open x y with
      | true => exact hmonoL q.1 q.2 (hsat1 x y hg1 hxygc hz q hq hqf hqm)
      | false => exact hsatL x y hxyL hg1 hz q hq hqf hqm
    · exact Nat.le_trans hccL hcc1

/-- One `open_cell_fuel` call of a mine-free flood fill, by induction on
the fuel: if the current state is in the flood relation over the click
state `g0` (whose stored adjacency counts are correct), the addressed
cell is in bounds and mine-free in `g0`, the cell belongs to the click
region whenever it is closed, unflagged and unmarked, and the fuel
exceeds the number of closed cells, then the call succeeds, stays in the
flood relation, only grows the opened set and only within the region,
opens the addressed cell when it was openable, and saturates every cell
it newly opens that has a zero nibble. -/
theorem flood_main (g0 : Game) (r0 c0 : Nat) (hadj : adj_correct g0) :
    ∀ fuel g a b, flood_rel g0 g →
      a < g0.rows → b < g0.cols → g0.has_mine a b = false →
      ((g0.is_open a b = false ∧ g0.has_flag a b = false ∧ g0.has_mark a b = false) →
        InRegion g0 r0 c0 a b) →
      closed_count g < fuel →
      ∃ g2, open_cell_fuel fuel g a b = .ok g2 ∧
        flood_rel g0 g2 ∧
        (∀ x y, g.is_open x y = true → g2.is_open x y = true) ∧
        (∀ x y, g2.is_open x y = true → g.is_open x y = true ∨ InRegion g0 r0 c0 x y) ∧
        ((g.is_open a b = false ∧ g0.has_flag a b = false ∧ g0.has_mark a b = false) →
          g2.is_open a b = true) ∧
        (∀ x y, g2.is_open x y = true → g.is_open x y = false →
          g0.num_adj_mines x y = 0 →
          ∀ p ∈ g0.adjacent_cells x y, g0.has_flag p.1 p.2 = false →
            g0.has_mark p.1 p.2 = false → g2.is_open p.1 p.2 = true) ∧
        closed_count g2 ≤ closed_count g := by
  intro fuel
  induction fuel with
  | zero =>
    intro g a b _ _ _ _ _ hfuel
    exact absurd hfuel (Nat.not_lt_zero _)
  | succ fuel ih =>
    intro g a b hrel hab hbb hmine HC hfuel
    obtain ⟨hR, hC, hGO, hW, hCF, hWF, hOBS, hMONO⟩ := hrel
    have hrel0 : flood_rel g0 g := ⟨hR, hC, hGO, hW, hCF, hWF, hOBS, hMONO⟩
    by_cases hguard : g.is_open a b = true ∨ g.has_flag a b = true ∨ g.has_mark a b = true
    · -- the guard fires: the call is a no-op
      have hcall : open_cell_fuel (fuel + 1) g a b = .ok g := by
        rw [open_cell_fuel, if_pos hguard]
      refine ⟨g, hcall, hrel0, fun x y h => h, fun x y h => Or.inl h, ?_, ?_, Nat.le_refl _⟩
      · rintro ⟨hclosed, hf0, hm0⟩
        rcases hguard with h | h | h
        · exact h
        · rw [(hOBS a b).1, hf0] at h
          exact absurd h Bool.false_ne_true
        · rw [(hOBS a b).2.1, hm0] at h
          exact absurd h Bool.false_ne_true
      · intro x y h1 h2
        rw [h2] at h1
        exact absurd h1 Bool.false_ne_true
    · -- the guard passes: the cell is opened
      have h1f : g.is_open a b = false := by
        cases hb : g.is_open a b
        · rfl
        · exact absurd (Or.inl hb) hguard
      have h2f : g.has_flag a b = false := by
        cases hb : g.has_flag a b
        · rfl
        · exact absurd (Or.inr (Or.inl hb)) hguard
      have h3f : g.has_mark a b = false := by
        cases hb : g.has_mark a b
        · rfl
        · exact absurd (Or.inr (Or.inr hb)) hguard
      have ha_g : a < g.rows := by rw [hR]; exact hab
      have hb_g : b < g.cols := by rw [hC]; exact hbb
      have h0closed : g0.is_open a b = false := by
        cases h0 : g0.is_open a b
        · rfl
        · have := hMONO a b h0
          rw [h1f] at this
          exact absurd this Bool.false_ne_true
      have h0f : g0.has_flag a b = false := by
        rw [← (hOBS a b).1]
        exact h2f
      have h0m : g0.has_mark a b = false := by
        rw [← (hOBS a b).2.1]
        exact h3f
      have hInR : InRegion g0 r0 c0 a b := HC ⟨h0closed, h0f, h0m⟩
      have hrel1 : flood_rel g0 (open_mark g a b) := flood_rel_open_mark hrel0 a b
      have hnmine : ¬((open_mark g a b).has_mine a b = true) := by
        rw [has_mine_open_mark g hWF a b a b, (hOBS a b).2.2.1, hmine]
        exact Bool.false_ne_true
      have hcall : open_cell_fuel (fuel + 1) g a b
          = flood_phase (open_cell_fuel fuel) (open_mark g a b) a b := by
        rw [open_cell_fuel, if_neg hguard, if_neg hnmine]
      have hcc1 : closed_count g = closed_count (open_mark g a b) + 1 :=
        closed_count_open_mark hWF ha_g hb_g h1f
      have hfuel1 : closed_count (open_mark g a b) < fuel := by omega
      by_cases hz : g0.num_adj_mines a b = 0
      · -- zero nibble: the neighbour loop runs
        have hz1 : (open_mark g a b).num_adj_mines a b = 0 := by
          rw [num_adj_open_mark g hWF a b a b, (hOBS a b).2.2.2]
          exact hz
        have hcall2 : open_cell_fuel (fuel + 1) g a b
            = (g0.adjacent_cells a b).foldl (fun (acc : Except GameError Game) p =>
                acc.bind (fun gg => open_cell_fuel fuel gg p.1 p.2))
                (.ok (open_mark g a b)) := by
          rw [hcall]
          unfold flood_phase
          rw [if_pos hz1, @adjacent_cells_congr g0 (open_mark g a b) hR hC a b]
        have hadj_ab : g0.num_adj_mines a b = mined_neighbors g0 a b := by
          have h := hadj (a, b) ((@mem_allCells g0.rows g0.cols (a, b)).2 ⟨hab, hbb⟩)
          exact h
        have hmn : ((g0.adjacent_cells a b).filter
            (fun q => g0.has_mine q.1 q.2)).length = 0 := by
          have h : mined_neighbors g0 a b = 0 := by
            rw [← hadj_ab]
            exact hz
          exact h
        have hfilter := List.length_eq_zero.1 hmn
        have hchild : ∀ p ∈ g0.adjacent_cells a b,
            p.1 < g0.rows ∧ p.2 < g0.cols ∧ g0.has_mine p.1 p.2 = false ∧
            ((g0.is_open p.1 p.2 = false ∧ g0.has_flag p.1 p.2 = false ∧
              g0.has_mark p.1 p.2 = false) → InRegion g0 r0 c0 p.1 p.2) := by
          intro p hp
          obtain ⟨qx, qy⟩ := p
          have hbounds := adjacent_cells_bounds g0 a b hp
          refine ⟨hbounds.1, hbounds.2, ?_, ?_⟩
          · cases hq : g0.has_mine qx qy with
            | false => rfl
            | true =>
              have hmem2 : (qx, qy) ∈ (g0.adjacent_cells a b).filter
                  (fun q => g0.has_mine q.1 q.2) := List.mem_filter.2 ⟨hp, hq⟩
              rw [hfilter] at hmem2
              exact absurd hmem2 (List.not_mem_nil _)
          · rintro ⟨hp0, hpf, hpm⟩
            exact InRegion.step hInR h0closed h0f h0m hz hp hp0 hpf hpm
        obtain ⟨gL, hokL, hrelL, hmonoL, hcontL, hCLL, hsatL, hccL⟩ :=
          flood_list g0 r0 c0 fuel ih (g0.adjacent_cells a b) (open_mark g a b)
            hrel1 hchild hfuel1
        refine ⟨gL, ?_, hrelL, ?_, ?_, ?_, ?_, ?_⟩
        · rw [hcall2]
          exact hokL
        · exact fun x y h => hmonoL x y (is_open_open_mark_mono hWF a b x y h)
        · intro x y h
          rcases hcontL x y h with h1 | h1
          · by_cases hxy : x = a ∧ y = b
            · obtain ⟨hx, hy⟩ := hxy
              subst hx; subst hy
              exact Or.inr hInR
            · rw [is_open_open_mark_ne hWF a b x y hxy] at h1
              exact Or.inl h1
          · exact Or.inr h1
        · intro _
          exact hmonoL a b (is_open_open_mark_self hWF ha_g hb_g)
        · intro x y hxL hxg hz2 q hq hqf hqm
          by_cases hxy : x = a ∧ y = b
          · obtain ⟨hx, hy⟩ := hxy
            subst hx; subst hy
            exact hCLL q hq hqf hqm
          · have hx1 : (open_mark g a b).is_open x y = false := by
              rw [is_open_open_mark_ne hWF a b x y hxy]
              exact hxg
            exact hsatL x y hxL hx1 hz2 q hq hqf hqm
        · exact Nat.le_trans hccL (by omega)
      · -- non-zero nibble: no neighbour loop, only the cell itself opens
        have hz1 : ¬((open_mark g a b).num_adj_mines a b = 0) := by
          rw [num_adj_open_mark g hWF a b a b, (hOBS a b).2.2.2]
          exact hz
        have hcall2 : open_cell_fuel (fuel + 1) g a b = .ok (open_mark g a b) := by
          rw [hcall]
          unfold flood_phase
          rw [if_neg hz1]
        refine ⟨open_mark g a b, hcall2, hrel1, ?_, ?_, ?_, ?_, by omega⟩
        · exact fun x y h => is_open_open_mark_mono hWF a b x y h
        · intro x y h
          by_cases hxy : x = a ∧ y = b
          · obtain ⟨hx, hy⟩ := hxy
            subst hx; subst hy
            exact Or.inr hInR
          · rw [is_open_open_mark_ne hWF a b x y hxy] at h
            exact Or.inl h
        · intro _
          exact is_open_open_mark_self hWF ha_g hb_g
        · intro x y hx1 hx2 hz2 q hq hqf hqm
          by_cases hxy : x = a ∧ y = b
          · obtain ⟨hx, hy⟩ := hxy
            subst hx; subst hy
            exact absurd hz2 hz
          · rw [is_open_open_mark_ne hWF a b x y hxy] at hx1
            rw [hx2] at hx1
            exact absurd hx1 Bool.false_ne_true

/-- Claim C6 (amended): calling `open_cell` on a closed, unflagged,
unmarked, mine-free cell with a zero adjacency nibble — in a state whose
stored adjacency counts are correct — succeeds, and the resulting opened
set is exactly the old opened set plus the click region `InRegion`
(cells transitively reachable from the clicked cell through closed,
unflagged, unmarked zero-adjacency cells, plus their closed, unflagged,
unmarked boundary); flag, mark and mine bits, adjacency nibbles,
dimensions, the game-over/won flags and the flag counter are all
unchanged — so flagged or marked cells stay closed and block the fill,
and no cell outside the region changes state. -/
theorem C6_flood_fill_exact (g : Game) (r c : Nat) (hwf : WF g) (hadj : adj_correct g)
    (hr : r < g.rows) (hc : c < g.cols)
    (ho : g.is_open r c = false) (hf : g.has_flag r c = false) (hm : g.has_mark r c = false)
    (hmine : g.has_mine r c = false) (hzero : g.num_adj_mines r c = 0) :
    ∃ g2, g.open_cell r c = .ok g2 ∧
      (∀ x y, g2.is_open x y = true ↔ (g.is_open x y = true ∨ InRegion g r c x y)) ∧
      (∀ x y, g2.has_flag x y = g.has_flag x y ∧ g2.has_mark x y = g.has_mark x y ∧
        g2.has_mine x y = g.has_mine x y ∧ g2.num_adj_mines x y = g.num_adj_mines x y) ∧
      g2.rows = g.rows ∧ g2.cols = g.cols ∧ g2.game_over = g.game_over ∧
      g2.won = g.won ∧ g2.cells_flagged = g.cells_flagged := by
  have hrel : flood_rel g g := ⟨rfl, rfl, rfl, rfl, rfl, hwf,
    fun x y => ⟨rfl, rfl, rfl, rfl⟩, fun x y h => h⟩
  have hfuel : closed_count g < g.rows * g.cols + 1 := Nat.lt_succ_of_le (closed_count_le g)
  obtain ⟨g2, hok, hrel2, hmono2, hcont2, hopens2, hsat2, _⟩ :=
    flood_main g r c hadj (g.rows * g.cols + 1) g r c hrel hr hc hmine
      (fun _ => InRegion.base) hfuel
  obtain ⟨h2R, h2C, h2GO, h2W, h2CF, _, h2OBS, _⟩ := hrel2
  refine ⟨g2, hok, ?_, h2OBS, h2R, h2C, h2GO, h2W, h2CF⟩
  intro x y
  constructor
  · intro h
    exact hcont2 x y h
  · intro h
    rcases h with h | hreg
    · exact hmono2 x y h
    · induction hreg with
      | base => exact hopens2 ⟨ho, hf, hm⟩
      | @step a2 b2 x2 y2 h1 h2 h3 h4 h5 h6 h7 h8 h9 ih =>
        exact hsat2 a2 b2 ih h2 h5 (x2, y2) h6 h8 h9

/-- Witness for `C6_flood_fill_exact`: the mine-free 2x2 board, whose
nibbles are all zero; opening `(0, 0)` floods the whole board. -/
theorem C6_flood_fill_witness :
    WF (mkGame 2 2 0 [0, 1, 2, 3]) ∧ adj_correct (mkGame 2 2 0 [0, 1, 2, 3]) ∧
    0 < (mkGame 2 2 0 [0, 1, 2, 3]).rows ∧ 0 < (mkGame 2 2 0 [0, 1, 2, 3]).cols ∧
    (mkGame 2 2 0 [0, 1, 2, 3]).is_open 0 0 = false ∧
    (mkGame 2 2 0 [0, 1, 2, 3]).has_flag 0 0 = false ∧
    (mkGame 2 2 0 [0, 1, 2, 3]).has_mark 0 0 = false ∧
    (mkGame 2 2 0 [0, 1, 2, 3]).has_mine 0 0 = false ∧
    (mkGame 2 2 0 [0, 1, 2, 3]).num_adj_mines 0 0 = 0 ∧
    ∃ g2, (mkGame 2 2 0 [0, 1, 2, 3]).open_cell 0 0 = .ok g2 ∧
      (∀ x y, g2.is_open x y = true ↔ ((mkGame 2 2 0 [0, 1, 2, 3]).is_open x y = true ∨
        InRegion (mkGame 2 2 0 [0, 1, 2, 3]) 0 0 x y)) ∧
      (∀ x y, g2.has_flag x y = (mkGame 2 2 0 [0, 1, 2, 3]).has_flag x y ∧
        g2.has_mark x y = (mkGame 2 2 0 [0, 1, 2, 3]).has_mark x y ∧
        g2.has_mine x y = (mkGame 2 2 0 [0, 1, 2, 3]).has_mine x y ∧
        g2.num_adj_mines x y = (mkGame 2 2 0 [0, 1, 2, 3]).num_adj_mines x y) ∧
      g2.rows = (mkGame 2 2 0 [0, 1, 2, 3]).rows ∧
      g2.cols = (mkGame 2 2 0 [0, 1, 2, 3]).cols ∧
      g2.game_over = (mkGame 2 2 0 [0, 1, 2, 3]).game_over ∧
      g2.won = (mkGame 2 2 0 [0, 1, 2, 3]).won ∧
      g2.cells_flagged = (mkGame 2 2 0 [0, 1, 2, 3]).cells_flagged :=
  ⟨by decide, by decide, by decide, by decide, by decide, by decide, by decide, by decide,
    by decide,
    C6_flood_fill_exact (mkGame 2 2 0 [0, 1, 2, 3]) 0 0 (by decide) (by decide) (by decide)
      (by decide) (by decide) (by decide) (by decide) (by decide) (by decide)⟩

end Termmine
